import Mathlib

/-!
Shallow embedding of the juscash retrieval pipeline.

Strings are modelled as `List Char`.  Python semantics that the embedded
functions rely on (whitespace classes, `str.strip`, `str.lower`, regular
expressions used by the code, `float(...)` conversion, truthiness) are
embedded explicitly below.  Each definition mirrors one function of the
repository; the file name of the source is given in the doc comment.

Caveats of the embedding (documented once here):
* `str.lower` is modelled on ASCII plus the Latin-1 letter block, which
  covers every character appearing in the repository's fixed strings;
* Python `float` string parsing is modelled without digit-group
  underscores; IEEE doubles are modelled by exact rationals (plus
  distinguished nan/inf values), which agrees with the code's single
  comparison against 1000 except within one ulp of the threshold;
* the whitespace class is the common core of `str.strip` and `re` `\s`.
-/

/-- Whitespace class used by Python `str.strip`, `str.split` and `re` `\s`. -/
def pyIsSpace (c : Char) : Bool :=
  c = ' ' || c = '\t' || c = '\n' || c = '\r' ||
  c.toNat = 0x0B || c.toNat = 0x0C ||
  c.toNat = 0x1C || c.toNat = 0x1D || c.toNat = 0x1E || c.toNat = 0x1F ||
  c.toNat = 0x85 || c.toNat = 0xA0

/-- Terminal sentence punctuation of the splitting regex `(?<=[\.\!\?])\s+`. -/
def isTermPunct (c : Char) : Bool := c = '.' || c = '!' || c = '?'

/-- Python `str.lower` on one character (ASCII and Latin-1 letters). -/
def lowChar (c : Char) : Char :=
  if 'A' ≤ c && c ≤ 'Z' then Char.ofNat (c.toNat + 32)
  else if 0xC0 ≤ c.toNat && c.toNat ≤ 0xDE && c.toNat ≠ 0xD7 then Char.ofNat (c.toNat + 32)
  else c

/-- Python `str.lower`. -/
def pyLower (s : List Char) : List Char := s.map lowChar

/-- Python `str.lstrip()` (no arguments). -/
def stripL (s : List Char) : List Char := s.dropWhile pyIsSpace

/-- Python `str.rstrip()` (no arguments). -/
def stripR (s : List Char) : List Char := (s.reverse.dropWhile pyIsSpace).reverse

/-- Python `str.strip()` (no arguments). -/
def pyStrip (s : List Char) : List Char := stripR (stripL s)

/-- Python `str.startswith` on character lists. -/
def startsList : List Char → List Char → Bool
  | [], _ => true
  | _ :: _, [] => false
  | a :: pr, b :: sr => a = b && startsList pr sr

/-- Python substring test `pat in s` on character lists. -/
def subList (pat s : List Char) : Bool := s.tails.any (fun t => startsList pat t)

/-- Scanner for `re.split(r"(?<=[\.\!\?])\s+", text)`: a maximal whitespace
run that immediately follows terminal punctuation separates two parts.
`prevTerm` records whether the previously consumed character was terminal
punctuation; `acc` is the current part, reversed.  The fuel argument (the
input length at the top call) only bounds the recursion; every step
consumes at least one character, so the fuel never runs out. -/
def splitSentAux : Nat → Bool → List Char → List Char → List (List Char)
  | _, _, acc, [] => [acc.reverse]
  | 0, _, acc, rest => [(acc.reverse ++ rest)]
  | fuel + 1, prevTerm, acc, c :: rest =>
    if pyIsSpace c && prevTerm then
      acc.reverse :: splitSentAux fuel false [] (rest.dropWhile pyIsSpace)
    else
      splitSentAux fuel (isTermPunct c) (c :: acc) rest

/-- Parts of `re.split(r"(?<=[\.\!\?])\s+", text)`. -/
def splitParts (text : List Char) : List (List Char) :=
  splitSentAux text.length false [] text

/-- Embeds `_split_sentences` of `app/services/ingest.py`:
split on whitespace after terminal punctuation, keep the non-blank parts,
stripped. -/
def split_sentences (text : List Char) : List (List Char) :=
  ((splitParts text).filter (fun p => !p.isEmpty && !(pyStrip p).isEmpty)).map pyStrip

/-- Python `" ".join`. -/
def joinSp : List (List Char) → List Char
  | [] => []
  | [b] => b
  | b :: c :: rest => b ++ ' ' :: joinSp (c :: rest)

/-- Python slice `s[:k]` for an `int` bound `k` (negative bounds count from
the end, clamped at zero). -/
def pySliceTo (s : List Char) (k : Int) : List Char :=
  if 0 ≤ k then s.take k.toNat else s.take ((s.length : Int) + k).toNat

/-- Python slice `s[-k:]` for `k > 0`: the trailing `min k (length s)`
characters. -/
def lastChars (s : List Char) (k : Int) : List Char := s.drop (s.length - k.toNat)

/-- Main accumulation loop of `chunk_text` in `app/services/ingest.py`.
Arguments: remaining sentences, emitted chunks, current buffer `buf`, and
the Python `cur_len` counter. -/
def chunkLoop (chunk_size overlap : Int) :
    List (List Char) → List (List Char) → List (List Char) → Int → List (List Char)
  | [], chunks, buf, _ =>
    if buf.isEmpty then chunks else chunks ++ [pyStrip (joinSp buf)]
  | s :: rest, chunks, buf, cur_len =>
    if cur_len + s.length + 1 ≤ chunk_size then
      chunkLoop chunk_size overlap rest chunks (buf ++ [s]) (cur_len + s.length + 1)
    else if !buf.isEmpty then
      if 0 < overlap then
        chunkLoop chunk_size overlap rest (chunks ++ [pyStrip (joinSp buf)])
          [lastChars (joinSp buf) overlap, s]
          ((lastChars (joinSp buf) overlap).length + 1 + s.length)
      else
        chunkLoop chunk_size overlap rest (chunks ++ [pyStrip (joinSp buf)]) [s] (s.length : Int)
    else
      chunkLoop chunk_size overlap rest (chunks ++ [pySliceTo s chunk_size]) [] 0

/-- Scanner for `re.sub(r"\s{2,}", " ", s)`: every run of two or more
whitespace characters becomes one space; single whitespace characters are
kept unchanged.  Fuelled like `splitSentAux`; every step consumes at least
one character. -/
def collapseWsAux : Nat → List Char → List Char
  | _, [] => []
  | _, [c] => [c]
  | 0, s => s
  | fuel + 1, a :: b :: rest =>
    if pyIsSpace a && pyIsSpace b then ' ' :: collapseWsAux fuel (rest.dropWhile pyIsSpace)
    else a :: collapseWsAux fuel (b :: rest)

def collapseWs (s : List Char) : List Char := collapseWsAux s.length s

/-- Final cleanup pass of `chunk_text`: normalise whitespace, strip, drop
blanks and exact duplicates keeping first occurrences (`seen` set). -/
def cleanChunksAux (seen : List (List Char)) : List (List Char) → List (List Char)
  | [] => []
  | c :: rest =>
    if !(pyStrip (collapseWs c)).isEmpty && !(decide (pyStrip (collapseWs c) ∈ seen)) then
      pyStrip (collapseWs c) :: cleanChunksAux (pyStrip (collapseWs c) :: seen) rest
    else
      cleanChunksAux seen rest

/-- Embeds `chunk_text` of `app/services/ingest.py` (defaults in the source:
`chunk_size=800`, `overlap=150`). -/
def chunk_text (text : List Char) (chunk_size overlap : Int) : List (List Char) :=
  cleanChunksAux [] (chunkLoop chunk_size overlap (split_sentences text) [] [] 0)

/-- Result dictionary of `ingest_text` (the `count_after` key, `None` on the
empty-input path and absent otherwise, carries no information and is left
out). -/
structure IngestResult where
  collection : List Char
  added : Nat
  ids : List (List Char)
deriving DecidableEq

/-- Python `f"{i:06d}"`. -/
def zeroPad6 (i : Nat) : List Char :=
  List.replicate (6 - (Nat.toDigits 10 i).length) '0' ++ Nat.toDigits 10 i

/-- Embeds `ingest_text` of `app/services/ingest.py`.  The vector store is
an abstract state `σ` and `upsert_documents` (an external collaborator
wrapping Chroma, `app/integrations/chroma.py`) is passed as a state
transformer taking collection name, texts, metadatas (`{"source": source,
"i": i}` pairs) and ids. -/
def ingest_text {σ : Type}
    (upsert_documents : List Char → List (List Char) → List (List Char × Nat) → List (List Char) → σ → σ)
    (collection text source : List Char) (chunk_size overlap : Int) (store : σ) :
    IngestResult × σ :=
  if text.isEmpty || (pyStrip text).isEmpty then (⟨collection, 0, []⟩, store)
  else
    let chunks := chunk_text text chunk_size overlap
    let metas := (List.range chunks.length).map (fun i => (source, i))
    let ids := (List.range chunks.length).map (fun i => source ++ '-' :: zeroPad6 i)
    (⟨collection, ids.length, ids⟩, upsert_documents collection chunks metas ids store)

/-- Values a JSON-ish Python case payload can hold (as passed to
`apply_rules` in `app/services/verify.py`).  IEEE floats appear as the
`float` constructor. -/
inductive PyFloat where
  | nan
  | inf (neg : Bool)
  | val (q : ℚ)
deriving DecidableEq

inductive PyValue where
  | none
  | bool (b : Bool)
  | int (n : Int)
  | float (f : PyFloat)
  | str (s : List Char)
  | dict (entries : List (List Char × PyValue))
  | list (items : List PyValue)

/-- Exceptions the modelled Python code can raise. -/
inductive PyErr where
  | attributeError
  | typeError
  | valueError
deriving DecidableEq

/-- Python truthiness `bool(v)`. -/
def pyTruthy : PyValue → Bool
  | .none => false
  | .bool b => b
  | .int n => n != 0
  | .float .nan => true
  | .float (.inf _) => true
  | .float (.val q) => q != 0
  | .str s => !s.isEmpty
  | .dict d => !d.isEmpty
  | .list l => !l.isEmpty

/-- Dictionary lookup (keys of a Python dict are unique, so first match). -/
def lookupAssoc : List (List Char × PyValue) → List Char → Option PyValue
  | [], _ => Option.none
  | (k, v) :: rest, key => if k = key then some v else lookupAssoc rest key

/-- Python `payload.get(key)` (default `None`). -/
def getPy (payload : List (List Char × PyValue)) (key : List Char) : PyValue :=
  (lookupAssoc payload key).getD .none

/-- Python `v or d`. -/
def pyOr (v d : PyValue) : PyValue := if pyTruthy v then v else d

/-- Python `(v or "").strip().lower()`: an `AttributeError` unless the
surviving value is a string. -/
def asStrLower (v : PyValue) : Except PyErr (List Char) :=
  match pyOr v (.str []) with
  | .str s => .ok (pyLower (pyStrip s))
  | _ => .error .attributeError

/-- Python `bool((v or {}).get("comprovante_transito", False))`: an
`AttributeError` unless the surviving value is a dict. -/
def docsFlag (v : PyValue) : Except PyErr Bool :=
  match pyOr v (.dict []) with
  | .dict entries =>
      .ok (pyTruthy ((lookupAssoc entries "comprovante_transito".toList).getD (.bool false)))
  | _ => .error .attributeError

def isDigitCh (c : Char) : Bool := '0' ≤ c && c ≤ '9'

def digitsToNat (ds : List Char) : Nat := ds.foldl (fun a c => a * 10 + (c.toNat - '0'.toNat)) 0

/-- Exponent tail `[0-9]+` of a float literal, applied to `base`. -/
def expDigits (base : ℚ) (r : List Char) (neg : Bool) : Option ℚ :=
  if (r.takeWhile isDigitCh).isEmpty || !(r.drop (r.takeWhile isDigitCh).length).isEmpty then
    Option.none
  else if neg then some (base / 10 ^ digitsToNat (r.takeWhile isDigitCh))
  else some (base * 10 ^ digitsToNat (r.takeWhile isDigitCh))

/-- Optional `e`/`E` exponent of a Python float literal. -/
def applyExp (base : ℚ) : List Char → Option ℚ
  | [] => some base
  | e :: r2 =>
    if e = 'e' || e = 'E' then
      match r2 with
      | '+' :: r3 => expDigits base r3 false
      | '-' :: r3 => expDigits base r3 true
      | r3 => expDigits base r3 false
    else Option.none

/-- Mantissa `d+ | d+.d* | .d+` of a Python float literal; returns its value
and the unconsumed rest. -/
def parseMantissa (s : List Char) : Option (ℚ × List Char) :=
  match s.drop (s.takeWhile isDigitCh).length with
  | '.' :: r2 =>
    if (s.takeWhile isDigitCh).isEmpty && (r2.takeWhile isDigitCh).isEmpty then Option.none
    else some
      ((digitsToNat (s.takeWhile isDigitCh) : ℚ) +
        (digitsToNat (r2.takeWhile isDigitCh) : ℚ) / (10 : ℚ) ^ (r2.takeWhile isDigitCh).length,
       r2.drop (r2.takeWhile isDigitCh).length)
  | r1 =>
    if (s.takeWhile isDigitCh).isEmpty then Option.none
    else some ((digitsToNat (s.takeWhile isDigitCh) : ℚ), r1)

/-- Unsigned part of `float(string)`. -/
def parsePyFloatBody (neg : Bool) (body : List Char) : Option PyFloat :=
  if pyLower body = "inf".toList || pyLower body = "infinity".toList then some (.inf neg)
  else if pyLower body = "nan".toList then some .nan
  else
    match parseMantissa body with
    | Option.none => Option.none
    | some (m, rest) =>
      match applyExp m rest with
      | Option.none => Option.none
      | some q => some (.val (if neg then -q else q))

/-- Python `float(string)`: optional surrounding whitespace and sign, then a
decimal literal, `inf`/`infinity` or `nan` (case-insensitive). -/
def parsePyFloat (s : List Char) : Option PyFloat :=
  match pyStrip s with
  | '+' :: r => parsePyFloatBody false r
  | '-' :: r => parsePyFloatBody true r
  | r => parsePyFloatBody false r

/-- Python `float(v)` on an arbitrary payload value. -/
def pyFloatOf : PyValue → Except PyErr PyFloat
  | .float f => .ok f
  | .int n => .ok (.val (n : ℚ))
  | .bool b => .ok (.val (if b then 1 else 0))
  | .str s =>
    match parsePyFloat s with
    | some f => .ok f
    | Option.none => .error .valueError
  | .none => .error .typeError
  | .dict _ => .error .typeError
  | .list _ => .error .typeError

/-- IEEE `<` with nan and infinities. -/
def pyFloatLt : PyFloat → PyFloat → Bool
  | .nan, _ => false
  | _, .nan => false
  | .inf n1, .inf n2 => n1 && !n2
  | .inf n1, .val _ => n1
  | .val _, .inf n2 => !n2
  | .val a, .val b => decide (a < b)

/-- Python `v is False`. -/
def isPyFalse : PyValue → Bool
  | .bool false => true
  | _ => false

/-- Python `v is None`. -/
def isPyNone : PyValue → Bool
  | .none => true
  | _ => false

/-- Helper to state parse failure of `float(v)` as a Bool. -/
def pyFloatParses (v : PyValue) : Bool :=
  match pyFloatOf v with
  | .ok _ => true
  | .error _ => false

/-- Embeds `_dedupe` of `app/services/verify.py`: drop duplicates keeping
first-seen order. -/
def dedupeAux (seen : List String) : List String → List String
  | [] => []
  | x :: rest =>
    if decide (x ∈ seen) then dedupeAux seen rest else x :: dedupeAux (x :: seen) rest

def dedupe (l : List String) : List String := dedupeAux [] l

/-- Rule 1 of `apply_rules`: labor-law keyword `"trabalh"` in `natureza`. -/
def step_natureza (natureza : List Char) : List String × List String :=
  if subList "trabalh".toList natureza then
    (["POL-4"], ["Crédito de natureza trabalhista."])
  else ([], [])

/-- Rule 2 of `apply_rules`: `try: if valor is not None and float(valor) <
1000 ... except: cite POL-8`. -/
def step_valor (valor : PyValue) : List String × List String :=
  if isPyNone valor then ([], [])
  else
    match pyFloatOf valor with
    | .ok f =>
      if pyFloatLt f (.val 1000) then
        (["POL-3"], ["Valor de condenação inferior a R$ 1.000,00."])
      else ([], [])
    | .error _ => (["POL-8"], ["Valor de condenação inválido ou ausente."])

/-- Rule 3 of `apply_rules`: res judicata. -/
def step_transito (transitado : PyValue) (tem_comprovante : Bool) : List String × List String :=
  if isPyFalse transitado then
    (["POL-1"], ["Processo não transitado em julgado."])
  else if isPyNone transitado && !tem_comprovante then
    (["POL-8"], ["Falta comprovação do trânsito em julgado (documento essencial)."])
  else ([], [])

/-- Rule 4 of `apply_rules`: procedural phase. -/
def step_fase (fase : List Char) : List String × List String :=
  if !fase.isEmpty then
    if !subList "execu".toList fase then
      (["POL-1"], ["Caso não está em fase de execução."])
    else ([], [])
  else (["POL-8"], ["Fase processual não informada."])

/-- Pure core of `apply_rules` in `app/services/verify.py`, applied after
the field extraction lines succeeded. -/
def rules_core (natureza fase : List Char) (valor transitado : PyValue)
    (tem_comprovante : Bool) : String × List String × List String :=
  let citations := dedupe
    ((step_natureza natureza).1 ++ (step_valor valor).1 ++
     (step_transito transitado tem_comprovante).1 ++ (step_fase fase).1)
  let reasons :=
    (step_natureza natureza).2 ++ (step_valor valor).2 ++
    (step_transito transitado tem_comprovante).2 ++ (step_fase fase).2
  let decision : String :=
    if decide ("POL-4" ∈ citations) || decide ("POL-3" ∈ citations) || isPyFalse transitado ||
       (decide ("POL-1" ∈ citations) && !decide ("POL-8" ∈ citations)) then "rejected"
    else if decide ("POL-8" ∈ citations) then "incomplete"
    else "approved"
  (decision, citations, reasons)

/-- Embeds `apply_rules` of `app/services/verify.py`.  The three field
extraction lines (`natureza`, `fase`, `docs`) are the only places an
exception can escape; the `float` conversion is guarded by `try/except`
inside `step_valor`. -/
def apply_rules (payload : List (List Char × PyValue)) :
    Except PyErr (String × List String × List String) :=
  match asStrLower (getPy payload "natureza".toList) with
  | .error e => .error e
  | .ok natureza =>
    match asStrLower (getPy payload "fase".toList) with
    | .error e => .error e
    | .ok fase =>
      match docsFlag (getPy payload "docs".toList) with
      | .error e => .error e
      | .ok tem_comprovante =>
        .ok (rules_core natureza fase
          (getPy payload "valor_condenacao".toList)
          (getPy payload "transitado_em_julgado".toList) tem_comprovante)

/-- System prompt `SYSTEM_PROMPT_PT` of `app/integrations/generator.py`. -/
def SYSTEM_PROMPT_PT : List Char :=
  ("Você responde em português, de forma concisa e objetiva.\n" ++
   "Use SOMENTE o CONTEXTO fornecido. Se a resposta não estiver no contexto, diga: " ++
   "'Não encontrei no contexto'. NÃO repita a pergunta. Responda em 1–2 frases.").toList

/-- Embeds `_is_seq2seq_name`: any of the family keywords occurs in the
lowered model name. -/
def is_seq2seq_name (name : List Char) : Bool :=
  subList "t5".toList (pyLower name) || subList "bart".toList (pyLower name) ||
  subList "mbart".toList (pyLower name) || subList "pegasus".toList (pyLower name)

/-- Embeds `_build_inputs`: the two prompt templates. -/
def build_inputs (context question : List Char) (is_seq2seq : Bool) : List Char :=
  if is_seq2seq then
    "Contexto:\n".toList ++ context ++ "\n\nPergunta: ".toList ++ question ++
    "\nResponda em 1–2 frases, usando apenas o contexto acima:".toList
  else
    SYSTEM_PROMPT_PT ++ "\n\n### CONTEXTO\n".toList ++ context ++
    "\n\n### PERGUNTA\n".toList ++ question ++ "\n\n### RESPOSTA\n".toList

/-- First part of `_first_sentence`'s loop: the first split part whose strip
has at least 15 characters. -/
def firstLongPart : List (List Char) → Option (List Char)
  | [] => Option.none
  | p :: rest => if 15 ≤ (pyStrip p).length then some (pyStrip p) else firstLongPart rest

/-- Embeds `_first_sentence` of `app/integrations/generator.py`. -/
def first_sentence (text : List Char) : List Char :=
  if (pyStrip text).isEmpty then []
  else
    match firstLongPart (splitParts (pyStrip text)) with
    | some s => s
    | Option.none => pyStrip ((pyStrip text).take 240)

/-- Fixed leaked-instruction substrings of `_looks_like_echo`. -/
def echoPatterns : List (List Char) :=
  ["você responde em português".toList, "use somente o contexto".toList,
   "responda em 1–2 frases".toList, "### contexto".toList, "### resposta".toList,
   "resposta:".toList, "answer:".toList, "contexto:".toList, "pergunta:".toList]

/-- Embeds `_looks_like_echo` of `app/integrations/generator.py`. -/
def looks_like_echo (ans : List Char) : Bool :=
  if (pyLower ans).isEmpty then true
  else echoPatterns.any (fun p => subList p (pyLower ans))

/-- Line-break characters recognised by Python `str.splitlines`. -/
def isLineBreak (c : Char) : Bool :=
  c = '\n' || c = '\r' || c.toNat = 0x0B || c.toNat = 0x0C ||
  c.toNat = 0x1C || c.toNat = 0x1D || c.toNat = 0x1E || c.toNat = 0x85 ||
  c.toNat = 0x2028 || c.toNat = 0x2029

/-- Python `str.splitlines` (`acc` is the current line, reversed). -/
def splitLinesAux (acc : List Char) : List Char → List (List Char)
  | [] => if acc.isEmpty then [] else [acc.reverse]
  | '\r' :: '\n' :: rest => acc.reverse :: splitLinesAux [] rest
  | c :: rest =>
    if isLineBreak c then acc.reverse :: splitLinesAux [] rest
    else splitLinesAux (c :: acc) rest

def pySplitLines (s : List Char) : List (List Char) := splitLinesAux [] s

/-- Python `"\n".join`. -/
def joinNL : List (List Char) → List Char
  | [] => []
  | [b] => b
  | b :: c :: rest => b ++ '\n' :: joinNL (c :: rest)

/-- Boolean test of `re.match(r'^(contexto|pergunta|resposta|###\s*resposta|###\s*contexto)\s*:?', l, re.I)`
(the trailing `\s*:?` always matches, so only the alternation matters). -/
def labelRegexMatch (l : List Char) : Bool :=
  startsList "contexto".toList (pyLower l) || startsList "pergunta".toList (pyLower l) ||
  startsList "resposta".toList (pyLower l) ||
  (startsList "###".toList (pyLower l) &&
    (startsList "resposta".toList (((pyLower l).drop 3).dropWhile pyIsSpace) ||
     startsList "contexto".toList (((pyLower l).drop 3).dropWhile pyIsSpace)))

/-- Case-insensitive literal match at the head; `pat` is lowercase.  Returns
the unconsumed rest. -/
def dropStartCI : List Char → List Char → Option (List Char)
  | [], rest => some rest
  | _ :: _, [] => Option.none
  | a :: pr, b :: sr => if a = lowChar b then dropStartCI pr sr else Option.none

/-- Regex `\s+` at the head (greedy); returns the rest on success. -/
def wsPlus : List Char → Option (List Char)
  | [] => Option.none
  | c :: rest => if pyIsSpace c then some (rest.dropWhile pyIsSpace) else Option.none

/-- Tail `\s+frases` of the instruction-echo regex. -/
def matchFrases (s : List Char) : Bool :=
  match wsPlus s with
  | some r => (dropStartCI "frases".toList r).isSome
  | Option.none => false

/-- Tail `2\s+frases`. -/
def match2Frases : List Char → Bool
  | '2' :: r => matchFrases r
  | _ => false

/-- Regex `.?` (greedy, no newline) followed by continuation `k`. -/
def matchDotOpt (k : List Char → Bool) : List Char → Bool
  | [] => k []
  | c :: r => (c ≠ '\n' && k r) || k (c :: r)

/-- Tail `–.?2\s+frases`. -/
def matchDash2 : List Char → Bool
  | '–' :: r => matchDotOpt match2Frases r
  | _ => false

/-- Match of `responda\s+em\s+1.?–.?2\s+frases` (case-insensitive) at the
head of `s`. -/
def respondaAt (s : List Char) : Bool :=
  match dropStartCI "responda".toList s with
  | Option.none => false
  | some r1 =>
    match wsPlus r1 with
    | Option.none => false
    | some r2 =>
      match dropStartCI "em".toList r2 with
      | Option.none => false
      | some r3 =>
        match wsPlus r3 with
        | Option.none => false
        | some r4 =>
          match r4 with
          | '1' :: r5 => matchDotOpt matchDash2 r5
          | _ => false

/-- Boolean test of `re.search(r"responda\s+em\s+1.?–.?2\s+frases", s, re.I)`. -/
def respondaSearch (s : List Char) : Bool := s.tails.any respondaAt

/-- Boolean test of `re.search(r"você responde em português", s, re.I)`. -/
def voceSearch (s : List Char) : Bool :=
  subList "você responde em português".toList (pyLower s)

/-- Suffix `\s*:\s*` of the label-removal regex; returns the rest past the
match. -/
def labelColonTail (r : List Char) : Option (List Char) :=
  match r.dropWhile pyIsSpace with
  | ':' :: r3 => some (r3.dropWhile pyIsSpace)
  | _ => Option.none

/-- Match of `(Contexto|Pergunta|Resposta)\s*:\s*` (case-insensitive) at the
head. -/
def labelColonAt (s : List Char) : Option (List Char) :=
  match dropStartCI "contexto".toList s with
  | some r => labelColonTail r
  | Option.none =>
    match dropStartCI "pergunta".toList s with
    | some r => labelColonTail r
    | Option.none =>
      match dropStartCI "resposta".toList s with
      | some r => labelColonTail r
      | Option.none => Option.none

/-- Scanner of `re.sub(r"(Contexto|Pergunta|Resposta)\s*:\s*", "", s, re.I)`
(fuelled by the input length; each match consumes at least nine
characters, so the fuel never runs out). -/
def removeLabelColonAux : Nat → List Char → List Char
  | 0, s => s
  | _ + 1, [] => []
  | fuel + 1, c :: rest =>
    match labelColonAt (c :: rest) with
    | some r => removeLabelColonAux fuel r
    | Option.none => c :: removeLabelColonAux fuel rest

def removeLabelColon (s : List Char) : List Char := removeLabelColonAux s.length s

/-- Embeds `_strip_prompt_labels` of `app/integrations/generator.py`. -/
def strip_prompt_labels (text : List Char) : List Char :=
  if text.isEmpty then text
  else
    pyStrip (removeLabelColon (pyStrip (joinNL
      (pySplitLines text |>.filter (fun ln =>
        !(labelRegexMatch (pyStrip ln) || respondaSearch (pyStrip ln) ||
          voceSearch (pyStrip ln)))))))

/-- Section separators tried in order by `_clean_answer`. -/
def sepList : List (List Char) :=
  ["\n###".toList, "\n\n###".toList, "\n\n".toList, "\nRESPOSTA:".toList,
   "\nResposta:".toList, "\n#".toList]

/-- Python `text.split(sep, 1)[0]`. -/
def takeBeforeSep (sep : List Char) : List Char → List Char
  | [] => []
  | c :: rest => if startsList sep (c :: rest) then [] else c :: takeBeforeSep sep rest

/-- Separator-truncation pass of `_clean_answer`. -/
def applySeps (t : List Char) : List Char :=
  sepList.foldl (fun t sep => if subList sep t then takeBeforeSep sep t else t) t

/-- Leading role labels stripped inside the echo passes of `_clean_answer`. -/
def echoLeadPats : List (List Char) :=
  ["resposta:".toList, "### resposta".toList, "###resposta".toList,
   "answer:".toList, "### answer".toList]

/-- Python `t.lstrip(": .-")`. -/
def lstripSet (s : List Char) : List Char :=
  s.dropWhile (fun c => c = ':' || c = ' ' || c = '.' || c = '-')

/-- One iteration of the three-pass echo-stripping loop of `_clean_answer`. -/
def echoPass (question lower_q t0 : List Char) : List Char :=
  let t := stripL t0
  let t := echoLeadPats.foldl
    (fun t p => if startsList p (pyLower t) then stripL (t.drop p.length) else t) t
  if startsList lower_q (pyLower t) then stripL (lstripSet (t.drop question.length)) else t

/-- Python `text.strip(' "\'')`. -/
def stripQuotes (s : List Char) : List Char :=
  ((s.dropWhile (fun c => c = ' ' || c = '"' || c = '\'')).reverse.dropWhile
    (fun c => c = ' ' || c = '"' || c = '\'')).reverse

/-- Word characters for the `\b` boundaries of the RAG-artifact regex
(ASCII plus Latin-1 letters). -/
def isWordCh (c : Char) : Bool :=
  ('a' ≤ c && c ≤ 'z') || ('A' ≤ c && c ≤ 'Z') || ('0' ≤ c && c ≤ '9') || c = '_' ||
  (0xC0 ≤ c.toNat && c.toNat ≤ 0xFF && c.toNat ≠ 0xD7 && c.toNat ≠ 0xF7)

def isRCh (c : Char) : Bool := c = 'r' || c = 'R'

/-- Scanner of `re.sub(r"\bR{2,}AG\b", "RAG", s, re.I)` (fuelled by the
input length; every step consumes at least one character). -/
def fixRAGAux : Nat → Bool → List Char → List Char
  | 0, _, s => s
  | _ + 1, _, [] => []
  | fuel + 1, prevWord, c :: rest =>
    if !prevWord && isRCh c then
      if 2 ≤ ((c :: rest).takeWhile isRCh).length then
        match (c :: rest).drop ((c :: rest).takeWhile isRCh).length with
        | a :: g :: r2 =>
          if (a = 'a' || a = 'A') && (g = 'g' || g = 'G') &&
             (match r2 with | [] => true | x :: _ => !isWordCh x) then
            'R' :: 'A' :: 'G' :: fixRAGAux fuel true r2
          else c :: fixRAGAux fuel (isWordCh c) rest
        | _ => c :: fixRAGAux fuel (isWordCh c) rest
      else c :: fixRAGAux fuel (isWordCh c) rest
    else c :: fixRAGAux fuel (isWordCh c) rest

def fixRAG (s : List Char) : List Char := fixRAGAux s.length false s

/-- Embeds `_clean_answer` of `app/integrations/generator.py`: prompt-echo
prefix strip, separator truncation, label-line removal, three echo passes,
quote strip, whitespace collapse, RAG-artifact repair, final strip. -/
def clean_answer (question prompt decoded : List Char) : List Char :=
  let text := decoded
  let text := if !prompt.isEmpty && startsList prompt text then text.drop prompt.length else text
  let text := applySeps text
  let text := strip_prompt_labels text
  let text := echoPass question (pyLower (pyStrip question))
    (echoPass question (pyLower (pyStrip question))
      (echoPass question (pyLower (pyStrip question)) text))
  let text := stripQuotes text
  let text := collapseWs text
  let text := fixRAG text
  pyStrip text

/-- Settings fields of `app/core/config.py` consumed by the generator
(defaults there: `LLM_BACKEND="local"`, `LLM_MODEL="google/flan-t5-small"`). -/
structure GenSettings where
  LLM_MODEL : List Char
  LLM_BACKEND : List Char

/-- FastAPI `HTTPException` as raised by `_generate_hf`. -/
structure HTTPException where
  status_code : Int
  detail : List Char
deriving DecidableEq

/-- Detail message of the `HTTPException` raised by `_generate_hf`. -/
def hfErrorDetail : List Char :=
  ("Falha na Inference API da HF para geração. " ++
   "Use LLM_BACKEND=local ou configure HF_TOKEN.").toList

/-- Embeds `_generate_hf` of `app/integrations/generator.py`.  The hosted
backend call is abstract: it either returns decoded text or fails like
`HfHubHTTPError` with an optional response status; the except-branch maps
the failure to an `HTTPException` with that status (500 when absent). -/
def generate_hf (hfCall : List Char → Except (Option Int) (List Char))
    (prompt question : List Char) : Except HTTPException (List Char) :=
  match hfCall prompt with
  | .ok out => .ok (clean_answer question prompt out)
  | .error status => .error ⟨status.getD 500, hfErrorDetail⟩

/-- Python `"\n\n---\n\n".join`. -/
def joinCtx : List (List Char) → List Char
  | [] => []
  | [b] => b
  | b :: c :: rest => b ++ "\n\n---\n\n".toList ++ joinCtx (c :: rest)

/-- Embeds `generate_answer` of `app/integrations/generator.py`.  The three
backends are abstract decoders: `hfCall` models the hosted-inference call
(which may fail), `t2tGen`/`causalGen` model the local model decodes
(`_generate_local_t2t`/`_generate_local_causal` then clean the decode with
`_clean_answer`, which is inlined here exactly as in the source). -/
def generate_answer (st : GenSettings)
    (hfCall : List Char → Except (Option Int) (List Char))
    (t2tGen causalGen : List Char → List Char)
    (context_chunks : List (List Char)) (question : List Char) :
    Except HTTPException (List Char) :=
  let chunks := (context_chunks.filter (fun c => !c.isEmpty && !(pyStrip c).isEmpty)).map pyStrip
  let prompt := build_inputs (joinCtx (chunks.take 5)) question (is_seq2seq_name st.LLM_MODEL)
  let ansE : Except HTTPException (List Char) :=
    if pyLower (if st.LLM_BACKEND.isEmpty then "local".toList else st.LLM_BACKEND) = "hf".toList then
      generate_hf hfCall prompt question
    else if is_seq2seq_name st.LLM_MODEL then
      .ok (clean_answer question prompt (t2tGen prompt))
    else
      .ok (clean_answer question prompt (causalGen prompt))
  match ansE with
  | .error e => .error e
  | .ok ans =>
    if looks_like_echo ans || ans.length < 5 then
      .ok (if (first_sentence (chunks.headD [])).isEmpty then
             "Não encontrei no contexto.".toList
           else first_sentence (chunks.headD []))
    else .ok ans

/-- Payload of spec scenario 2 / claim C4 (pydantic maps the JSON number
500 to a float). -/
def laborPayload : List (List Char × PyValue) :=
  [("natureza".toList, PyValue.str "labor".toList),
   ("valor_condenacao".toList, PyValue.float (PyFloat.val 500)),
   ("transitado_em_julgado".toList, PyValue.bool false),
   ("fase".toList, PyValue.str [])]

/-- Payload of spec scenario 3 (all rules satisfied). -/
def approvedPayload : List (List Char × PyValue) :=
  [("natureza".toList, PyValue.str "civil".toList),
   ("valor_condenacao".toList, PyValue.float (PyFloat.val 5000)),
   ("transitado_em_julgado".toList, PyValue.bool true),
   ("fase".toList, PyValue.str "execution".toList)]

/-- Payload of spec scenario 4 (unparsable award value, everything else
missing). -/
def incompletePayload : List (List Char × PyValue) :=
  [("natureza".toList, PyValue.str "civil".toList),
   ("valor_condenacao".toList, PyValue.str "abc".toList),
   ("transitado_em_julgado".toList, PyValue.none),
   ("fase".toList, PyValue.none),
   ("docs".toList, PyValue.dict [])]

/-- Input whose two 19-character sentences overflow a 20-character chunk
budget once the 5-character overlap carry is seeded. -/
def overlapCexText : List Char := "aaaaaaaaaaaaaaaaaa. bbbbbbbbbbbbbbbbbb.".toList

theorem within_of_start {α : Type} {a b : List α} (h : a <+: b) : a <:+: b := by
  obtain ⟨t, rfl⟩ := h
  exact ⟨[], t, by simp⟩

theorem within_of_end {α : Type} {a b : List α} (h : a <:+ b) : a <:+: b := by
  obtain ⟨t, rfl⟩ := h
  exact ⟨t, [], by simp⟩

theorem startsList_iff (p s : List Char) : startsList p s = true ↔ p <+: s := by
  induction p generalizing s with
  | nil => simp [startsList]
  | cons a pr ih =>
    cases s with
    | nil => simp [startsList]
    | cons b sr =>
      simp only [startsList, Bool.and_eq_true, decide_eq_true_eq, ih,
        List.cons_prefix_cons]

theorem subList_iff (p s : List Char) : subList p s = true ↔ p <:+: s := by
  simp only [subList, List.any_eq_true, List.mem_tails, startsList_iff]
  rw [List.infix_iff_prefix_suffix]
  tauto

theorem stripL_end (s : List Char) : stripL s <:+ s := List.dropWhile_suffix pyIsSpace

theorem stripR_start (s : List Char) : stripR s <+: s := by
  have h : s.reverse.dropWhile pyIsSpace <:+ s.reverse := List.dropWhile_suffix pyIsSpace
  have h2 : (stripR s).reverse <:+ s.reverse := by
    simpa [stripR] using h
  exact (List.reverse_suffix).mp h2

theorem pyStrip_within (s : List Char) : pyStrip s <:+: s :=
  (within_of_start (stripR_start (stripL s))).trans (within_of_end (stripL_end s))

theorem head?_of_start {α : Type} {a b : List α} (h : a <+: b) (hne : a ≠ []) :
    a.head? = b.head? := by
  obtain ⟨t, rfl⟩ := h
  cases a with
  | nil => exact absurd rfl hne
  | cons x xs => simp

theorem head?_dropWhile {p : Char → Bool} {s : List Char} {c : Char}
    (h : (s.dropWhile p).head? = some c) : p c = false := by
  induction s with
  | nil => simp at h
  | cons a r ih =>
    by_cases hp : p a
    · rw [List.dropWhile_cons_of_pos hp] at h
      exact ih h
    · rw [List.dropWhile_cons_of_neg hp] at h
      simp at h
      subst h
      simpa using hp

theorem head?_pyStrip {s : List Char} {c : Char} (h : (pyStrip s).head? = some c) :
    pyIsSpace c = false := by
  have hne : pyStrip s ≠ [] := by
    intro hnil
    rw [hnil] at h
    simp at h
  have : (pyStrip s).head? = (stripL s).head? :=
    head?_of_start (stripR_start (stripL s)) hne
  exact head?_dropWhile (p := pyIsSpace) (this ▸ h)

theorem getLast?_pyStrip {s : List Char} {c : Char} (h : (pyStrip s).getLast? = some c) :
    pyIsSpace c = false := by
  have h2 : ((stripL s).reverse.dropWhile pyIsSpace).head? = some c := by
    have : pyStrip s = ((stripL s).reverse.dropWhile pyIsSpace).reverse := rfl
    rw [this, List.getLast?_reverse] at h
    exact h
  exact head?_dropWhile h2

theorem dropWhile_append_singleton_ne_nil {p : Char → Bool} {l : List Char} {c : Char}
    (hc : p c = false) : (l ++ [c]).dropWhile p ≠ [] := by
  induction l with
  | nil => simp [List.dropWhile, hc]
  | cons a as ih =>
    simp only [List.cons_append, List.dropWhile_cons]
    split
    · exact ih
    · simp

theorem pyStrip_ne_nil {s : List Char} {c : Char} (hh : s.head? = some c)
    (hc : pyIsSpace c = false) : pyStrip s ≠ [] := by
  cases s with
  | nil => simp at hh
  | cons a r =>
    have ha : a = c := by simpa using hh
    have hca : pyIsSpace a = false := by rw [ha]; exact hc
    have hL : stripL (a :: r) = a :: r := List.dropWhile_cons_of_neg (by simp [hca])
    simp only [pyStrip, hL, stripR]
    intro hnil
    have hrev : (a :: r).reverse.dropWhile pyIsSpace = [] := by
      have := congrArg List.reverse hnil
      simpa using this
    rw [List.reverse_cons] at hrev
    exact dropWhile_append_singleton_ne_nil hca hrev

theorem joinSp_cons_cons (b c : List Char) (rest : List (List Char)) :
    joinSp (b :: c :: rest) = b ++ ' ' :: joinSp (c :: rest) := rfl

theorem joinSp_append_last (buf : List (List Char)) (s : List Char) (h : buf ≠ []) :
    joinSp (buf ++ [s]) = joinSp buf ++ ' ' :: s := by
  induction buf with
  | nil => exact absurd rfl h
  | cons b rest ih =>
    cases rest with
    | nil => rfl
    | cons c rest2 =>
      have h2 := ih (by simp)
      simp only [List.cons_append] at h2 ⊢
      rw [joinSp_cons_cons, joinSp_cons_cons, h2]
      simp

theorem mem_joinSp_within {x : List Char} {buf : List (List Char)} (h : x ∈ buf) :
    x <:+: joinSp buf := by
  induction buf with
  | nil => simp at h
  | cons b rest ih =>
    cases rest with
    | nil =>
      simp only [List.mem_singleton] at h
      subst h
      exact ⟨[], [], by simp [joinSp]⟩
    | cons c rest2 =>
      rcases List.mem_cons.mp h with rfl | hmem
      · exact within_of_start ⟨' ' :: joinSp (c :: rest2), by simp [joinSp_cons_cons]⟩
      · have htail : x <:+: joinSp (c :: rest2) := ih hmem
        refine htail.trans (within_of_end ⟨b ++ [' '], ?_⟩)
        simp [joinSp_cons_cons]

theorem dropWhile_eq_nil_all {p : Char → Bool} {l : List Char}
    (h : l.dropWhile p = []) : ∀ x ∈ l, p x = true := by
  intro x hx
  induction l with
  | nil => simp at hx
  | cons a r ih =>
    rw [List.dropWhile_cons] at h
    split at h
    · rcases List.mem_cons.mp hx with rfl | hr
      · assumption
      · exact ih h hr
    · simp at h

theorem within_pyStrip {p t : List Char} (hne : p ≠ [])
    (hh : ∀ c, p.head? = some c → pyIsSpace c = false)
    (hl : ∀ c, p.getLast? = some c → pyIsSpace c = false)
    (h : p <:+: t) : p <:+: pyStrip t := by
  obtain ⟨u, v, rfl⟩ := h
  obtain ⟨c, p', rfl⟩ : ∃ c p', p = c :: p' := by
    cases p with
    | nil => exact absurd rfl hne
    | cons c p' => exact ⟨c, p', rfl⟩
  have hc : pyIsSpace c = false := hh c rfl
  have hd : List.dropWhile pyIsSpace (c :: p') = c :: p' :=
    List.dropWhile_cons_of_neg (by simp [hc])
  have hstep1 : ∃ u', stripL (u ++ (c :: p') ++ v) = u' ++ ((c :: p') ++ v) := by
    by_cases hu : (List.dropWhile pyIsSpace u).isEmpty
    · refine ⟨[], ?_⟩
      simp [stripL, List.dropWhile_append, hu, hd, hc]
    · refine ⟨u.dropWhile pyIsSpace, ?_⟩
      simp [stripL, List.dropWhile_append, hu, hd, hc]
  obtain ⟨u', hu'⟩ := hstep1
  obtain ⟨g, hg⟩ : ∃ g, (c :: p').getLast? = some g :=
    ⟨(c :: p').getLast (by simp), List.getLast?_eq_getLast _ _⟩
  have hgns : pyIsSpace g = false := hl g hg
  have hrev_head : (c :: p').reverse.head? = some g := by
    rw [List.head?_reverse]
    exact hg
  have hrne : (c :: p').reverse.dropWhile pyIsSpace = (c :: p').reverse := by
    cases hrv : (c :: p').reverse with
    | nil => simp
    | cons x xs =>
      rw [hrv] at hrev_head
      have hx : x = g := by simpa using hrev_head
      subst hx
      exact List.dropWhile_cons_of_neg (by simp [hgns])
  have hXrev : (u' ++ ((c :: p') ++ v)).reverse =
      v.reverse ++ ((c :: p').reverse ++ u'.reverse) := by
    simp only [List.reverse_append, List.append_assoc]
  have hBC : List.dropWhile pyIsSpace ((c :: p').reverse ++ u'.reverse) =
      (c :: p').reverse ++ u'.reverse := by
    rw [List.dropWhile_append, hrne]
    have hBne : ((c :: p').reverse).isEmpty = false := by
      cases hrv : (c :: p').reverse with
      | nil =>
        have := congrArg List.length hrv
        simp at this
      | cons x xs => simp
    simp [hBne]
  have hstep2 : ∃ v', stripR (u' ++ ((c :: p') ++ v)) = u' ++ ((c :: p') ++ v') := by
    by_cases hv : (List.dropWhile pyIsSpace v.reverse).isEmpty = true
    · refine ⟨[], ?_⟩
      rw [stripR, hXrev, List.dropWhile_append, if_pos hv, hBC]
      simp [List.reverse_append]
    · refine ⟨(v.reverse.dropWhile pyIsSpace).reverse, ?_⟩
      rw [stripR, hXrev, List.dropWhile_append, if_neg hv]
      simp [List.reverse_append, List.append_assoc]
  obtain ⟨v', hv'⟩ := hstep2
  have : pyStrip (u ++ (c :: p') ++ v) = u' ++ ((c :: p') ++ v') := by
    rw [pyStrip]
    rw [show u ++ (c :: p') ++ v = u ++ ((c :: p') ++ v) from by simp, ← List.append_assoc] at hu'
    rw [hu', hv']
  rw [this]
  exact ⟨u', v', by simp⟩


theorem collapseWsAux_fuel : ∀ (n m : Nat) (l : List Char), l.length ≤ n → l.length ≤ m →
    collapseWsAux n l = collapseWsAux m l := by
  intro n
  induction n with
  | zero =>
    intro m l hn _
    have : l = [] := by
      cases l with
      | nil => rfl
      | cons a r => simp at hn
    subst this
    cases m <;> rfl
  | succ n ih =>
    intro m l hn hm
    match l with
    | [] => cases m <;> rfl
    | [c] => cases m <;> rfl
    | a :: b :: rest =>
      cases m with
      | zero => simp at hm
      | succ m =>
        show (if pyIsSpace a && pyIsSpace b then
            ' ' :: collapseWsAux n (rest.dropWhile pyIsSpace)
          else a :: collapseWsAux n (b :: rest)) =
          (if pyIsSpace a && pyIsSpace b then
            ' ' :: collapseWsAux m (rest.dropWhile pyIsSpace)
          else a :: collapseWsAux m (b :: rest))
        have hx := ih m (rest.dropWhile pyIsSpace)
          (Nat.le_trans (List.dropWhile_suffix pyIsSpace).length_le
            (by simp only [List.length_cons] at hn; omega))
          (Nat.le_trans (List.dropWhile_suffix pyIsSpace).length_le
            (by simp only [List.length_cons] at hm; omega))
        have hy := ih m (b :: rest)
          (by simp only [List.length_cons] at hn ⊢; omega)
          (by simp only [List.length_cons] at hm ⊢; omega)
        rw [hx, hy]

theorem collapseWsAux_eq {n : Nat} {l : List Char} (h : l.length ≤ n) :
    collapseWsAux n l = collapseWs l :=
  collapseWsAux_fuel n l.length l h (Nat.le_refl _)

theorem collapseWs_nil : collapseWs [] = [] := rfl

theorem collapseWs_one (c : Char) : collapseWs [c] = [c] := rfl

theorem collapseWs_two (a b : Char) (rest : List Char) :
    collapseWs (a :: b :: rest) =
      if pyIsSpace a && pyIsSpace b then ' ' :: collapseWs (rest.dropWhile pyIsSpace)
      else a :: collapseWs (b :: rest) := by
  have h1 : collapseWsAux (rest.length + 1) (rest.dropWhile pyIsSpace) =
      collapseWs (rest.dropWhile pyIsSpace) :=
    collapseWsAux_eq (Nat.le_succ_of_le (List.dropWhile_suffix pyIsSpace).length_le)
  have h2 : collapseWsAux (rest.length + 1) (b :: rest) = collapseWs (b :: rest) :=
    collapseWsAux_eq (by simp)
  calc collapseWs (a :: b :: rest)
      = if pyIsSpace a && pyIsSpace b then
          ' ' :: collapseWsAux (rest.length + 1) (rest.dropWhile pyIsSpace)
        else a :: collapseWsAux (rest.length + 1) (b :: rest) := rfl
    _ = _ := by rw [h1, h2]

theorem collapseWs_ne_nil {l : List Char} (h : l ≠ []) : collapseWs l ≠ [] := by
  match l with
  | [c] => simp [collapseWs_one]
  | a :: b :: rest =>
    rw [collapseWs_two]
    split <;> simp

theorem collapseWs_head {p : List Char} {c : Char} (hh : p.head? = some c)
    (hc : pyIsSpace c = false) : (collapseWs p).head? = some c := by
  match p with
  | [x] =>
    have : x = c := by simpa using hh
    subst this
    simp [collapseWs_one]
  | a :: b :: rest =>
    have : a = c := by simpa using hh
    subst this
    rw [collapseWs_two, if_neg (by simp [hc])]
    simp

theorem getLast?_cons_ne {α : Type} (x : α) {xs : List α} (h : xs ≠ []) :
    (x :: xs).getLast? = xs.getLast? := by
  cases xs with
  | nil => exact absurd rfl h
  | cons y ys => exact List.getLast?_cons_cons

theorem getLast?_end_share {α : Type} {a b : List α} (h : a <:+ b) (hne : a ≠ []) :
    a.getLast? = b.getLast? := by
  obtain ⟨t, rfl⟩ := h
  exact (List.getLast?_append_of_ne_nil t hne).symm

theorem head?_append_left {α : Type} {l₁ : List α} (l₂ : List α) (h : l₁ ≠ []) :
    (l₁ ++ l₂).head? = l₁.head? := by
  cases l₁ with
  | nil => exact absurd rfl h
  | cons x xs => simp

theorem mem_of_getLast?_eq {α : Type} {l : List α} {a : α} (h : l.getLast? = some a) :
    a ∈ l := by
  induction l with
  | nil => simp at h
  | cons x xs ih =>
    cases xs with
    | nil =>
      have : x = a := by simpa using h
      subst this
      simp
    | cons y ys =>
      rw [List.getLast?_cons_cons] at h
      exact List.mem_cons_of_mem x (ih h)

theorem collapseWs_len_le : ∀ (n : Nat) (l : List Char), l.length ≤ n →
    (collapseWs l).length ≤ l.length := by
  intro n
  induction n with
  | zero =>
    intro l hn
    have : l = [] := by
      cases l with
      | nil => rfl
      | cons a r => simp at hn
    subst this
    simp [collapseWs_nil]
  | succ n ih =>
    intro l hn
    match l with
    | [] => simp [collapseWs_nil]
    | [c] => simp [collapseWs_one]
    | a :: b :: rest =>
      rw [collapseWs_two]
      split
      · have h1 : (rest.dropWhile pyIsSpace).length ≤ rest.length :=
          (List.dropWhile_suffix pyIsSpace).length_le
        have h2 := ih (rest.dropWhile pyIsSpace)
          (Nat.le_trans h1 (by simp only [List.length_cons] at hn; omega))
        simp only [List.length_cons]
        omega
      · have h2 := ih (b :: rest) (by simp only [List.length_cons] at hn ⊢; omega)
        simp only [List.length_cons] at h2 ⊢
        omega

theorem collapseWs_append_of_last : ∀ (n : Nat) (p v : List Char), p.length ≤ n →
    (∀ c, p.getLast? = some c → pyIsSpace c = false) →
    collapseWs (p ++ v) = collapseWs p ++ collapseWs v := by
  intro n
  induction n with
  | zero =>
    intro p v hn _
    have : p = [] := by
      cases p with
      | nil => rfl
      | cons a r => simp at hn
    subst this
    simp [collapseWs_nil]
  | succ n ih =>
    intro p v hn hl
    match p with
    | [] => simp [collapseWs_nil]
    | [c] =>
      have hc : pyIsSpace c = false := hl c rfl
      cases v with
      | nil => simp [collapseWs_nil]
      | cons h t =>
        simp only [List.singleton_append, collapseWs_one]
        rw [collapseWs_two, if_neg (by simp [hc])]
    | a :: b :: p' =>
      by_cases hab : (pyIsSpace a && pyIsSpace b) = true
      · have hp'ne : p' ≠ [] := by
          intro hnil
          subst hnil
          have hb := hl b (by simp)
          simp only [Bool.and_eq_true] at hab
          rw [hab.2] at hb
          exact absurd hb (by simp)
        have hlast' : ∀ c, p'.getLast? = some c → pyIsSpace c = false := by
          intro c hc2
          apply hl
          rw [List.getLast?_cons_cons, getLast?_cons_ne b hp'ne]
          exact hc2
        have hdne : p'.dropWhile pyIsSpace ≠ [] := by
          intro hnil
          obtain ⟨g, hg⟩ : ∃ g, p'.getLast? = some g := by
            cases p' with
            | nil => exact absurd rfl hp'ne
            | cons x xs => exact ⟨_, List.getLast?_eq_getLast _ (by simp)⟩
          have hgmem : g ∈ p' := mem_of_getLast?_eq hg
          have hsp := (List.dropWhile_eq_nil_iff).mp hnil g hgmem
          rw [hlast' g hg] at hsp
          exact absurd hsp (by simp)
        have hdlast : ∀ c, (p'.dropWhile pyIsSpace).getLast? = some c → pyIsSpace c = false := by
          intro c hc2
          apply hlast'
          rw [← getLast?_end_share (List.dropWhile_suffix pyIsSpace) hdne]
          exact hc2
        have hdappend : (p' ++ v).dropWhile pyIsSpace = p'.dropWhile pyIsSpace ++ v := by
          rw [List.dropWhile_append]
          rw [if_neg (by simpa using hdne)]
        have hrec := ih (p'.dropWhile pyIsSpace) v
          (Nat.le_trans (List.dropWhile_suffix pyIsSpace).length_le
            (by simp only [List.length_cons] at hn; omega))
          hdlast
        simp only [List.cons_append]
        rw [collapseWs_two, if_pos hab, collapseWs_two, if_pos hab, hdappend, hrec]
        simp
      · have hrec := ih (b :: p') v
          (by simp only [List.length_cons] at hn ⊢; omega)
          (by
            intro c hc2
            apply hl
            rw [List.getLast?_cons_cons]
            exact hc2)
        simp only [List.cons_append]
        rw [collapseWs_two, if_neg hab, collapseWs_two, if_neg hab]
        simp only [List.cons_append] at hrec
        rw [hrec]
        simp

theorem collapseWs_getLast : ∀ (n : Nat) (p : List Char), p.length ≤ n →
    (∀ c, p.getLast? = some c → pyIsSpace c = false) →
    (collapseWs p).getLast? = p.getLast? := by
  intro n
  induction n with
  | zero =>
    intro p hn _
    have : p = [] := by
      cases p with
      | nil => rfl
      | cons a r => simp at hn
    subst this
    simp [collapseWs_nil]
  | succ n ih =>
    intro p hn hl
    match p with
    | [] => simp [collapseWs_nil]
    | [c] => simp [collapseWs_one]
    | a :: b :: p' =>
      by_cases hab : (pyIsSpace a && pyIsSpace b) = true
      · have hp'ne : p' ≠ [] := by
          intro hnil
          subst hnil
          have hb := hl b (by simp)
          simp only [Bool.and_eq_true] at hab
          rw [hab.2] at hb
          exact absurd hb (by simp)
        have hlast' : ∀ c, p'.getLast? = some c → pyIsSpace c = false := by
          intro c hc2
          apply hl
          rw [List.getLast?_cons_cons, getLast?_cons_ne b hp'ne]
          exact hc2
        have hdne : p'.dropWhile pyIsSpace ≠ [] := by
          intro hnil
          obtain ⟨g, hg⟩ : ∃ g, p'.getLast? = some g := by
            cases p' with
            | nil => exact absurd rfl hp'ne
            | cons x xs => exact ⟨_, List.getLast?_eq_getLast _ (by simp)⟩
          have hgmem : g ∈ p' := mem_of_getLast?_eq hg
          have hsp := (List.dropWhile_eq_nil_iff).mp hnil g hgmem
          rw [hlast' g hg] at hsp
          exact absurd hsp (by simp)
        have hdlast : ∀ c, (p'.dropWhile pyIsSpace).getLast? = some c → pyIsSpace c = false := by
          intro c hc2
          apply hlast'
          rw [← getLast?_end_share (List.dropWhile_suffix pyIsSpace) hdne]
          exact hc2
        have hrec := ih (p'.dropWhile pyIsSpace)
          (Nat.le_trans (List.dropWhile_suffix pyIsSpace).length_le
            (by simp only [List.length_cons] at hn; omega))
          hdlast
        rw [collapseWs_two, if_pos hab]
        rw [getLast?_cons_ne ' ' (collapseWs_ne_nil hdne), hrec,
          getLast?_end_share (List.dropWhile_suffix pyIsSpace) hdne,
          List.getLast?_cons_cons, getLast?_cons_ne b hp'ne]
      · have hrec := ih (b :: p')
          (by simp only [List.length_cons] at hn ⊢; omega)
          (by
            intro c hc2
            apply hl
            rw [List.getLast?_cons_cons]
            exact hc2)
        rw [collapseWs_two, if_neg hab,
          getLast?_cons_ne a (collapseWs_ne_nil (by simp)), hrec,
          List.getLast?_cons_cons]

theorem collapseWs_append_head : ∀ (n : Nat) (u q : List Char), u.length ≤ n →
    (∀ c, q.head? = some c → pyIsSpace c = false) → q ≠ [] →
    ∃ w, collapseWs (u ++ q) = w ++ collapseWs q := by
  intro n
  induction n with
  | zero =>
    intro u q hn _ _
    have : u = [] := by
      cases u with
      | nil => rfl
      | cons a r => simp at hn
    subst this
    exact ⟨[], by simp⟩
  | succ n ih =>
    intro u q hn hq hqne
    match u with
    | [] => exact ⟨[], by simp⟩
    | [a] =>
      obtain ⟨h, t, rfl⟩ : ∃ h t, q = h :: t := by
        cases q with
        | nil => exact absurd rfl hqne
        | cons h t => exact ⟨h, t, rfl⟩
      have hh : pyIsSpace h = false := hq h rfl
      refine ⟨[a], ?_⟩
      simp only [List.singleton_append]
      rw [collapseWs_two, if_neg (by simp [hh])]
    | a :: b :: u' =>
      by_cases hab : (pyIsSpace a && pyIsSpace b) = true
      · by_cases hue : (List.dropWhile pyIsSpace u').isEmpty = true
        · refine ⟨[' '], ?_⟩
          simp only [List.cons_append]
          rw [collapseWs_two, if_pos hab, List.dropWhile_append, if_pos hue]
          obtain ⟨h, t, rfl⟩ : ∃ h t, q = h :: t := by
            cases q with
            | nil => exact absurd rfl hqne
            | cons h t => exact ⟨h, t, rfl⟩
          rw [List.dropWhile_cons_of_neg (by simp [hq h rfl])]
          simp
        · obtain ⟨w, hw⟩ := ih (u'.dropWhile pyIsSpace) q
            (Nat.le_trans (List.dropWhile_suffix pyIsSpace).length_le
              (by simp only [List.length_cons] at hn; omega))
            hq hqne
          refine ⟨' ' :: w, ?_⟩
          simp only [List.cons_append]
          rw [collapseWs_two, if_pos hab, List.dropWhile_append, if_neg hue, hw]
      · obtain ⟨w, hw⟩ := ih (b :: u') q
          (by simp only [List.length_cons] at hn ⊢; omega)
          hq hqne
        refine ⟨a :: w, ?_⟩
        simp only [List.cons_append]
        rw [collapseWs_two, if_neg hab]
        simp only [List.cons_append] at hw
        rw [hw]

theorem within_collapseWs {p t : List Char} (hne : p ≠ [])
    (hh : ∀ c, p.head? = some c → pyIsSpace c = false)
    (hl : ∀ c, p.getLast? = some c → pyIsSpace c = false)
    (h : p <:+: t) : collapseWs p <:+: collapseWs t := by
  obtain ⟨u, v, rfl⟩ := h
  have hA : collapseWs (p ++ v) = collapseWs p ++ collapseWs v :=
    collapseWs_append_of_last p.length p v (Nat.le_refl _) hl
  have hqh : ∀ c, (p ++ v).head? = some c → pyIsSpace c = false := by
    intro c hc
    rw [head?_append_left v hne] at hc
    exact hh c hc
  have hpvne : p ++ v ≠ [] := by
    cases p with
    | nil => exact absurd rfl hne
    | cons x xs => simp
  obtain ⟨w, hw⟩ := collapseWs_append_head u.length u (p ++ v) (Nat.le_refl _) hqh hpvne
  refine ⟨w, collapseWs v, ?_⟩
  rw [show u ++ p ++ v = u ++ (p ++ v) from by simp, hw, hA, List.append_assoc]

theorem cleanChunksAux_sup : ∀ (l seen : List (List Char)) (c : List Char),
    c ∈ l → pyStrip (collapseWs c) ≠ [] →
    pyStrip (collapseWs c) ∈ cleanChunksAux seen l ∨ pyStrip (collapseWs c) ∈ seen := by
  intro l
  induction l with
  | nil =>
    intro seen c hc _
    simp at hc
  | cons x rest ih =>
    intro seen c hc hne
    rcases List.mem_cons.mp hc with rfl | hmem
    · by_cases hseen : pyStrip (collapseWs c) ∈ seen
      · exact Or.inr hseen
      · left
        simp only [cleanChunksAux]
        rw [if_pos (by simp [hne, hseen])]
        exact List.mem_cons_self _ _
    · simp only [cleanChunksAux]
      split
      · rcases ih (pyStrip (collapseWs x) :: seen) c hmem hne with h | h
        · exact Or.inl (List.mem_cons_of_mem _ h)
        · rcases List.mem_cons.mp h with heq | hs
          · exact Or.inl (heq ▸ List.mem_cons_self _ _)
          · exact Or.inr hs
      · exact ih seen c hmem hne

theorem cleanChunksAux_sub : ∀ (l seen : List (List Char)) (c : List Char),
    c ∈ cleanChunksAux seen l → ∃ c₀ ∈ l, c = pyStrip (collapseWs c₀) := by
  intro l
  induction l with
  | nil =>
    intro seen c hc
    simp [cleanChunksAux] at hc
  | cons x rest ih =>
    intro seen c hc
    simp only [cleanChunksAux] at hc
    split at hc
    · rcases List.mem_cons.mp hc with rfl | hmem
      · exact ⟨x, List.mem_cons_self _ _, rfl⟩
      · obtain ⟨c₀, h₀, rfl⟩ := ih _ c hmem
        exact ⟨c₀, List.mem_cons_of_mem _ h₀, rfl⟩
    · obtain ⟨c₀, h₀, rfl⟩ := ih _ c hc
      exact ⟨c₀, List.mem_cons_of_mem _ h₀, rfl⟩

theorem pyStrip_len_le (s : List Char) : (pyStrip s).length ≤ s.length :=
  (pyStrip_within s).length_le

theorem ne_nil_of_isEmpty_false {α : Type} {l : List α} (h : l.isEmpty = false) :
    l ≠ [] := by
  cases l with
  | nil => simp at h
  | cons a r => simp

theorem split_sentences_shape {text s : List Char} (h : s ∈ split_sentences text) :
    s ≠ [] ∧ (∀ c, s.head? = some c → pyIsSpace c = false) ∧
      (∀ c, s.getLast? = some c → pyIsSpace c = false) := by
  simp only [split_sentences, List.mem_map, List.mem_filter] at h
  obtain ⟨p, ⟨_, hcond⟩, rfl⟩ := h
  refine ⟨?_, fun c hc => head?_pyStrip hc, fun c hc => getLast?_pyStrip hc⟩
  simp only [Bool.and_eq_true, Bool.not_eq_true'] at hcond
  exact ne_nil_of_isEmpty_false hcond.2

theorem chunkLoop_bound (cs ov : Int) (hov : 0 ≤ ov) :
    ∀ (sents chunks buf : List (List Char)) (cur : Int),
    (∀ s ∈ sents, (s.length : Int) + 1 ≤ cs) →
    ((joinSp buf).length : Int) ≤ cur →
    0 ≤ cur →
    cur ≤ cs + ov →
    (∀ c ∈ chunks, (c.length : Int) ≤ cs + ov) →
    ∀ c ∈ chunkLoop cs ov sents chunks buf cur, (c.length : Int) ≤ cs + ov := by
  intro sents
  induction sents with
  | nil =>
    intro chunks buf cur _ hbuf _ hcur hchunks c hc
    simp only [chunkLoop] at hc
    split at hc
    · exact hchunks c hc
    · rcases List.mem_append.mp hc with h | h
      · exact hchunks c h
      · have hceq : c = pyStrip (joinSp buf) := by simpa using h
        subst hceq
        have h1 : (pyStrip (joinSp buf)).length ≤ (joinSp buf).length := pyStrip_len_le _
        omega
  | cons s rest ih =>
    intro chunks buf cur hfit hbuf hcur0 hcur hchunks c hc
    have hsfit := hfit s (List.mem_cons_self s rest)
    have hrfit : ∀ t ∈ rest, (t.length : Int) + 1 ≤ cs :=
      fun t ht => hfit t (List.mem_cons_of_mem s ht)
    simp only [chunkLoop] at hc
    by_cases h1 : cur + (s.length : Int) + 1 ≤ cs
    · rw [if_pos h1] at hc
      refine ih chunks (buf ++ [s]) (cur + (s.length : Int) + 1) hrfit ?_ (by omega)
        (by omega) hchunks c hc
      cases buf with
      | nil =>
        show ((joinSp [s]).length : Int) ≤ cur + (s.length : Int) + 1
        show ((s.length : Nat) : Int) ≤ cur + (s.length : Int) + 1
        omega
      | cons b bs =>
        rw [joinSp_append_last (b :: bs) s (by simp)]
        simp only [List.length_append, List.length_cons]
        push_cast
        omega
    · rw [if_neg h1] at hc
      cases hbe : buf with
      | nil =>
        subst hbe
        rw [if_neg (by simp)] at hc
        refine ih (chunks ++ [pySliceTo s cs]) [] 0 hrfit (by simp [joinSp]) le_rfl
          (by omega) ?_ c hc
        intro c' hc'
        rcases List.mem_append.mp hc' with h | h
        · exact hchunks c' h
        · have hceq : c' = pySliceTo s cs := by simpa using h
          subst hceq
          simp only [pySliceTo]
          split
          · have h3 : (s.take cs.toNat).length ≤ cs.toNat := by
              simp [List.length_take]
            omega
          · have h3 : (s.take ((s.length : Int) + cs).toNat).length ≤ s.length := by
              simp [List.length_take]
            omega
      | cons b bs =>
        rw [if_pos (by simp [hbe])] at hc
        have hflush : ∀ c' ∈ chunks ++ [pyStrip (joinSp buf)], (c'.length : Int) ≤ cs + ov := by
          intro c' hc'
          rcases List.mem_append.mp hc' with h | h
          · exact hchunks c' h
          · have hceq : c' = pyStrip (joinSp buf) := by simpa using h
            subst hceq
            have := pyStrip_len_le (joinSp buf)
            omega
        by_cases h3 : (0 : Int) < ov
        · rw [if_pos h3] at hc
          have hcarrylen : ((lastChars (joinSp buf) ov).length : Int) ≤ ov := by
            simp only [lastChars, List.length_drop]
            omega
          refine ih _ _ _ hrfit ?_ (by omega) (by omega) hflush c hc
          rw [show [lastChars (joinSp buf) ov, s] =
            [lastChars (joinSp buf) ov] ++ [s] from rfl,
            joinSp_append_last _ s (by simp)]
          show (((joinSp [lastChars (joinSp buf) ov]) ++ ' ' :: s).length : Int) ≤ _
          simp only [joinSp, List.length_append, List.length_cons]
          push_cast
          omega
        · rw [if_neg h3] at hc
          refine ih _ _ _ hrfit ?_ (by omega) (by omega) hflush c hc
          show ((joinSp [s]).length : Int) ≤ (s.length : Int)
          show ((s.length : Nat) : Int) ≤ (s.length : Int)
          omega

theorem chunkLoop_zero (ov : Int) : ∀ (sents chunks : List (List Char)),
    chunkLoop 0 ov sents chunks [] 0 = chunks ++ sents.map (fun _ => ([] : List Char)) := by
  intro sents
  induction sents with
  | nil =>
    intro chunks
    simp [chunkLoop]
  | cons s rest ih =>
    intro chunks
    simp only [chunkLoop]
    rw [if_neg (by omega), if_neg (by simp)]
    rw [show pySliceTo s 0 = [] from by simp [pySliceTo], ih]
    simp

theorem cleanChunksAux_empties : ∀ (l seen : List (List Char)),
    (∀ c ∈ l, c = []) → cleanChunksAux seen l = [] := by
  intro l
  induction l with
  | nil =>
    intro seen _
    rfl
  | cons x rest ih =>
    intro seen hall
    have hx : x = [] := hall x (List.mem_cons_self _ _)
    subst hx
    simp only [cleanChunksAux]
    rw [if_neg (by simp [collapseWs_nil, pyStrip, stripL, stripR])]
    exact ih seen (fun c hc => hall c (List.mem_cons_of_mem _ hc))

theorem isEmpty_false_of_ne_nil {α : Type} {l : List α} (h : l ≠ []) :
    l.isEmpty = false := by
  cases l with
  | nil => exact absurd rfl h
  | cons a r => simp

theorem chunkLoop_covers (cs ov : Int) :
    ∀ (sents chunks buf : List (List Char)) (cur : Int) (x : List Char),
    (∀ s ∈ sents, (s.length : Int) + 1 ≤ cs) →
    (buf = [] → cur = 0) →
    x ≠ [] →
    (∀ c, x.head? = some c → pyIsSpace c = false) →
    (∀ c, x.getLast? = some c → pyIsSpace c = false) →
    (x ∈ sents ∨ (buf ≠ [] ∧ x <:+: joinSp buf) ∨ ∃ c ∈ chunks, x <:+: c) →
    ∃ c ∈ chunkLoop cs ov sents chunks buf cur, x <:+: c := by
  intro sents
  induction sents with
  | nil =>
    intro chunks buf cur x _ _ hxne hxh hxl hx
    simp only [chunkLoop]
    rcases hx with hx | ⟨hbne, hx⟩ | ⟨c, hc, hxc⟩
    · simp at hx
    · rw [if_neg (by simp [isEmpty_false_of_ne_nil hbne])]
      exact ⟨pyStrip (joinSp buf), by simp, within_pyStrip hxne hxh hxl hx⟩
    · split
      · exact ⟨c, hc, hxc⟩
      · exact ⟨c, List.mem_append.mpr (Or.inl hc), hxc⟩
  | cons s rest ih =>
    intro chunks buf cur x hfit hinv hxne hxh hxl hx
    have hrfit : ∀ t ∈ rest, (t.length : Int) + 1 ≤ cs :=
      fun t ht => hfit t (List.mem_cons_of_mem s ht)
    simp only [chunkLoop]
    by_cases h1 : cur + (s.length : Int) + 1 ≤ cs
    · rw [if_pos h1]
      apply ih chunks (buf ++ [s]) _ x hrfit (by simp) hxne hxh hxl
      rcases hx with hx | ⟨hbne, hx⟩ | hxc
      · rcases List.mem_cons.mp hx with rfl | hxr
        · exact Or.inr (Or.inl ⟨by simp, mem_joinSp_within (by simp)⟩)
        · exact Or.inl hxr
      · refine Or.inr (Or.inl ⟨by simp, ?_⟩)
        rw [joinSp_append_last buf s hbne]
        exact hx.trans (within_of_start ⟨' ' :: s, rfl⟩)
      · exact Or.inr (Or.inr hxc)
    · rw [if_neg h1]
      cases hbe : buf with
      | nil =>
        exfalso
        have hc0 : cur = 0 := hinv hbe
        have := hfit s (List.mem_cons_self s rest)
        omega
      | cons b bs =>
        rw [if_pos (by simp [hbe])]
        rw [← hbe]
        have hbne : buf ≠ [] := by simp [hbe]
        by_cases h3 : (0 : Int) < ov
        · rw [if_pos h3]
          apply ih (chunks ++ [pyStrip (joinSp buf)]) [lastChars (joinSp buf) ov, s] _ x
            hrfit (by simp) hxne hxh hxl
          rcases hx with hx | ⟨_, hx⟩ | ⟨c, hc, hxc⟩
          · rcases List.mem_cons.mp hx with rfl | hxr
            · exact Or.inr (Or.inl ⟨by simp, mem_joinSp_within (by simp)⟩)
            · exact Or.inl hxr
          · exact Or.inr (Or.inr
              ⟨pyStrip (joinSp buf), by simp, within_pyStrip hxne hxh hxl hx⟩)
          · exact Or.inr (Or.inr ⟨c, List.mem_append.mpr (Or.inl hc), hxc⟩)
        · rw [if_neg h3]
          apply ih (chunks ++ [pyStrip (joinSp buf)]) [s] _ x
            hrfit (by simp) hxne hxh hxl
          rcases hx with hx | ⟨_, hx⟩ | ⟨c, hc, hxc⟩
          · rcases List.mem_cons.mp hx with rfl | hxr
            · exact Or.inr (Or.inl ⟨by simp, mem_joinSp_within (by simp)⟩)
            · exact Or.inl hxr
          · exact Or.inr (Or.inr
              ⟨pyStrip (joinSp buf), by simp, within_pyStrip hxne hxh hxl hx⟩)
          · exact Or.inr (Or.inr ⟨c, List.mem_append.mpr (Or.inl hc), hxc⟩)

theorem splitSentAux_within : ∀ (n : Nat) (prevTerm : Bool) (acc l x : List Char),
    x ∈ splitSentAux n prevTerm acc l → x <:+: acc.reverse ++ l := by
  intro n
  induction n with
  | zero =>
    intro prevTerm acc l x hx
    cases l with
    | nil =>
      have hxe : x = acc.reverse := by simpa [splitSentAux] using hx
      subst hxe
      exact within_of_start ⟨[], by simp⟩
    | cons c rest =>
      have hxe : x = acc.reverse ++ (c :: rest) := by simpa [splitSentAux] using hx
      subst hxe
      exact ⟨[], [], by simp⟩
  | succ n ih =>
    intro prevTerm acc l x hx
    cases l with
    | nil =>
      have hxe : x = acc.reverse := by simpa [splitSentAux] using hx
      subst hxe
      exact within_of_start ⟨[], by simp⟩
    | cons c rest =>
      simp only [splitSentAux] at hx
      split at hx
      · rcases List.mem_cons.mp hx with rfl | hxr
        · exact within_of_start ⟨c :: rest, rfl⟩
        · have h2 := ih false [] (rest.dropWhile pyIsSpace) x hxr
          simp only [List.reverse_nil, List.nil_append] at h2
          refine h2.trans (within_of_end ?_)
          calc rest.dropWhile pyIsSpace
              <:+ rest := List.dropWhile_suffix pyIsSpace
            _ <:+ c :: rest := List.suffix_cons c rest
            _ <:+ acc.reverse ++ (c :: rest) := ⟨acc.reverse, rfl⟩
      · have h2 := ih (isTermPunct c) (c :: acc) rest x hx
        simp only [List.reverse_cons] at h2
        rw [show acc.reverse ++ [c] ++ rest = acc.reverse ++ (c :: rest) from by simp] at h2
        exact h2

theorem firstLongPart_cases : ∀ (parts : List (List Char)) (s : List Char),
    firstLongPart parts = some s → ∃ p ∈ parts, s = pyStrip p ∧ 15 ≤ s.length := by
  intro parts
  induction parts with
  | nil =>
    intro s hs
    simp [firstLongPart] at hs
  | cons p rest ih =>
    intro s hs
    simp only [firstLongPart] at hs
    split at hs
    · have hse : s = pyStrip p := by simpa using hs.symm
      subst hse
      exact ⟨p, List.mem_cons_self _ _, rfl, by assumption⟩
    · obtain ⟨q, hq, rfl, hlen⟩ := ih s hs
      exact ⟨q, List.mem_cons_of_mem _ hq, rfl, hlen⟩

theorem first_sentence_within (t : List Char) : first_sentence t <:+: t := by
  rw [first_sentence]
  split
  · exact ⟨[], t, by simp⟩
  · split
    · rename_i s hs
      obtain ⟨p, hp, rfl, _⟩ := firstLongPart_cases _ s hs
      have h1 : pyStrip p <:+: p := pyStrip_within p
      have h2 : p <:+: pyStrip t := by
        have := splitSentAux_within (pyStrip t).length false [] (pyStrip t) p hp
        simpa using this
      exact (h1.trans h2).trans (pyStrip_within t)
    · refine ((pyStrip_within _).trans (within_of_start ?_)).trans (pyStrip_within t)
      exact List.take_prefix 240 (pyStrip t)

theorem first_sentence_ne_nil {t : List Char} (h : pyStrip t ≠ []) :
    first_sentence t ≠ [] := by
  rw [first_sentence]
  rw [if_neg (by simp [isEmpty_false_of_ne_nil h])]
  split
  · rename_i s hs
    obtain ⟨p, _, _, hlen⟩ := firstLongPart_cases _ s hs
    intro h0
    rw [h0] at hlen
    simp at hlen
  · obtain ⟨c, r, hcr⟩ : ∃ c r, pyStrip t = c :: r := by
      cases hpt : pyStrip t with
      | nil => exact absurd hpt h
      | cons c r => exact ⟨c, r, rfl⟩
    have hc : pyIsSpace c = false := head?_pyStrip (by rw [hcr]; rfl)
    rw [hcr]
    have htake : ((c :: r).take 240).head? = some c := by
      rw [List.take_succ_cons]
      rfl
    exact pyStrip_ne_nil htake hc

theorem keptChunks_shape {ch : List Char} {l : List (List Char)}
    (h : ch ∈ (l.filter (fun c => !c.isEmpty && !(pyStrip c).isEmpty)).map pyStrip) :
    ∃ c₀ ∈ l, ch = pyStrip c₀ ∧ pyStrip c₀ ≠ [] := by
  simp only [List.mem_map, List.mem_filter] at h
  obtain ⟨c₀, ⟨hmem, hcond⟩, rfl⟩ := h
  simp only [Bool.and_eq_true, Bool.not_eq_true'] at hcond
  exact ⟨c₀, hmem, rfl, ne_nil_of_isEmpty_false hcond.2⟩

theorem keptChunks_ne_nil {l : List (List Char)}
    (h : ∃ c ∈ l, c ≠ [] ∧ pyStrip c ≠ []) :
    (l.filter (fun c => !c.isEmpty && !(pyStrip c).isEmpty)).map pyStrip ≠ [] := by
  obtain ⟨c, hc, hne, hsne⟩ := h
  have hmem : c ∈ l.filter (fun c => !c.isEmpty && !(pyStrip c).isEmpty) :=
    List.mem_filter.mpr ⟨hc,
      by simp [isEmpty_false_of_ne_nil hne, isEmpty_false_of_ne_nil hsne]⟩
  intro h0
  rw [List.map_eq_nil_iff] at h0
  rw [h0] at hmem
  simp at hmem

/-- C1 (amended): for every context list with at least one non-blank chunk
and every decoded backend output, `generate_answer` returns a non-empty
string, unconditionally; and whenever no context chunk itself contains a
fixed leaked-instruction substring (case-insensitively), the returned
string contains none either — this proviso attaches only to the
leak-freedom conjunct.  (The extractive fallback quotes the first context
chunk verbatim, so a chunk that contains such a substring can leak it —
see the counterexample.) -/
theorem generate_answer_nonempty_clean (st : GenSettings)
    (context_chunks : List (List Char)) (question decoded : List Char)
    (hctx : ∃ c ∈ context_chunks, c ≠ [] ∧ pyStrip c ≠ []) :
    ∃ r, generate_answer st (fun _ => Except.ok decoded) (fun _ => decoded) (fun _ => decoded)
        context_chunks question = Except.ok r ∧ r ≠ [] ∧
        ((∀ c ∈ context_chunks, ∀ p ∈ echoPatterns, ¬ p <:+: pyLower (pyStrip c)) →
          ∀ p ∈ echoPatterns, ¬ p <:+: pyLower r) := by
  simp only [generate_answer, generate_hf, ite_self]
  set CH := (context_chunks.filter (fun c => !c.isEmpty && !(pyStrip c).isEmpty)).map pyStrip
    with hCH
  set A := clean_answer question
    (build_inputs (joinCtx (CH.take 5)) question (is_seq2seq_name st.LLM_MODEL)) decoded with hA
  by_cases hg : (looks_like_echo A || decide (A.length < 5)) = true
  · rw [if_pos hg]
    have hne : CH ≠ [] := by
      rw [hCH]
      exact keptChunks_ne_nil hctx
    obtain ⟨ch, chtail, hch⟩ : ∃ ch chtail, CH = ch :: chtail := by
      cases hc : CH with
      | nil => exact absurd hc hne
      | cons ch tl => exact ⟨ch, tl, rfl⟩
    have hchmem : ch ∈ CH := by
      rw [hch]
      exact List.mem_cons_self _ _
    obtain ⟨c₀, hc₀mem, hcheq, hc₀ne⟩ := keptChunks_shape (hCH ▸ hchmem)
    have hhd : CH.headD [] = ch := by
      rw [hch]
      rfl
    have hstripstrip : pyStrip (pyStrip c₀) ≠ [] := by
      obtain ⟨c, r, hcr⟩ : ∃ c r, pyStrip c₀ = c :: r := by
        cases hpt : pyStrip c₀ with
        | nil => exact absurd hpt hc₀ne
        | cons c r => exact ⟨c, r, rfl⟩
      have hcns : pyIsSpace c = false := head?_pyStrip (by rw [hcr]; rfl)
      rw [hcr]
      exact pyStrip_ne_nil rfl hcns
    have hfbne : first_sentence (CH.headD []) ≠ [] := by
      rw [hhd, hcheq]
      exact first_sentence_ne_nil hstripstrip
    rw [if_neg (by simpa using hfbne)]
    refine ⟨first_sentence (CH.headD []), rfl, hfbne, ?_⟩
    intro hclean p hp hcontra
    have h1 : first_sentence (CH.headD []) <:+: pyStrip c₀ := by
      rw [hhd, hcheq]
      exact first_sentence_within _
    exact hclean c₀ hc₀mem p hp (hcontra.trans (h1.map lowChar))
  · rw [if_neg hg]
    simp only [Bool.or_eq_true, decide_eq_true_eq, not_or] at hg
    obtain ⟨hecho, hlen⟩ := hg
    refine ⟨A, rfl, ?_, ?_⟩
    · intro h0
      rw [h0] at hlen
      simp at hlen
    · intro _ p hp hcontra
      rw [looks_like_echo] at hecho
      rw [Bool.not_eq_true] at hecho
      split at hecho
      · simp at hecho
      · have := List.any_eq_false.mp hecho p hp
        rw [subList_iff] at this
        exact absurd hcontra (by simpa using this)

theorem mem_dedupeAux : ∀ (l seen : List String) (x : String),
    x ∈ dedupeAux seen l ↔ x ∈ l ∧ x ∉ seen := by
  intro l
  induction l with
  | nil =>
    intro seen x
    simp [dedupeAux]
  | cons y rest ih =>
    intro seen x
    simp only [dedupeAux]
    split
    · rename_i hy
      rw [decide_eq_true_eq] at hy
      rw [ih]
      simp only [List.mem_cons]
      constructor
      · rintro ⟨hx, hxs⟩
        exact ⟨Or.inr hx, hxs⟩
      · rintro ⟨hx | hx, hxs⟩
        · exact absurd (hx ▸ hy) hxs
        · exact ⟨hx, hxs⟩
    · rename_i hy
      rw [decide_eq_true_eq] at hy
      simp only [List.mem_cons, ih, List.mem_cons]
      constructor
      · rintro (rfl | ⟨hx, hxs⟩)
        · exact ⟨Or.inl rfl, hy⟩
        · exact ⟨Or.inr hx, fun hm => hxs (Or.inr hm)⟩
      · rintro ⟨hxy | hx, hxs⟩
        · exact Or.inl hxy
        · by_cases hxy2 : x = y
          · exact Or.inl hxy2
          · refine Or.inr ⟨hx, ?_⟩
            rintro (rfl | hm2)
            · exact hxy2 rfl
            · exact hxs hm2
  
theorem mem_dedupe (l : List String) (x : String) : x ∈ dedupe l ↔ x ∈ l := by
  rw [dedupe, mem_dedupeAux]
  simp

theorem dedupeAux_nodup : ∀ (l seen : List String), (dedupeAux seen l).Nodup := by
  intro l
  induction l with
  | nil =>
    intro seen
    simp [dedupeAux]
  | cons y rest ih =>
    intro seen
    simp only [dedupeAux]
    split
    · exact ih seen
    · refine List.nodup_cons.mpr ⟨?_, ih (y :: seen)⟩
      intro hmem
      have := (mem_dedupeAux rest (y :: seen) y).mp hmem
      exact this.2 (List.mem_cons_self _ _)

theorem dedupe_nodup (l : List String) : (dedupe l).Nodup := dedupeAux_nodup l []

theorem dedupe_nil_iff (l : List String) : dedupe l = [] ↔ l = [] := by
  cases l with
  | nil => simp [dedupe, dedupeAux]
  | cons x rest =>
    simp only [dedupe, dedupeAux]
    rw [if_neg (by simp)]
    simp

theorem step_natureza_cases (n : List Char) :
    step_natureza n = (["POL-4"], ["Crédito de natureza trabalhista."]) ∨
      step_natureza n = ([], []) := by
  rw [step_natureza]
  split
  · exact Or.inl rfl
  · exact Or.inr rfl

theorem step_valor_cases (v : PyValue) :
    step_valor v = (["POL-3"], ["Valor de condenação inferior a R$ 1.000,00."]) ∨
      step_valor v = (["POL-8"], ["Valor de condenação inválido ou ausente."]) ∨
      step_valor v = ([], []) := by
  rw [step_valor]
  split
  · exact Or.inr (Or.inr rfl)
  · split
    · split
      · exact Or.inl rfl
      · exact Or.inr (Or.inr rfl)
    · exact Or.inr (Or.inl rfl)

theorem step_transito_cases (t : PyValue) (b : Bool) :
    step_transito t b = (["POL-1"], ["Processo não transitado em julgado."]) ∨
      step_transito t b =
        (["POL-8"], ["Falta comprovação do trânsito em julgado (documento essencial)."]) ∨
      step_transito t b = ([], []) := by
  rw [step_transito]
  split
  · exact Or.inl rfl
  · split
    · exact Or.inr (Or.inl rfl)
    · exact Or.inr (Or.inr rfl)

theorem step_fase_cases (f : List Char) :
    step_fase f = (["POL-1"], ["Caso não está em fase de execução."]) ∨
      step_fase f = (["POL-8"], ["Fase processual não informada."]) ∨
      step_fase f = ([], []) := by
  rw [step_fase]
  split
  · split
    · exact Or.inl rfl
    · exact Or.inr (Or.inr rfl)
  · exact Or.inr (Or.inl rfl)

theorem step_transito_nil_false {t : PyValue} {b : Bool}
    (h : (step_transito t b).1 = []) : isPyFalse t = false := by
  rw [step_transito] at h
  by_cases hf : isPyFalse t = true
  · rw [if_pos hf] at h
    simp at h
  · simpa using hf

theorem step_natureza_sub (n : List Char) :
    ∀ x ∈ (step_natureza n).1, x = "POL-1" ∨ x = "POL-3" ∨ x = "POL-4" ∨ x = "POL-8" := by
  intro x hx
  rcases step_natureza_cases n with hc | hc <;> rw [hc] at hx
  · have hxe : x = "POL-4" := by simpa using hx
    exact Or.inr (Or.inr (Or.inl hxe))
  · simp at hx

theorem step_valor_sub (v : PyValue) :
    ∀ x ∈ (step_valor v).1, x = "POL-1" ∨ x = "POL-3" ∨ x = "POL-4" ∨ x = "POL-8" := by
  intro x hx
  rcases step_valor_cases v with hc | hc | hc <;> rw [hc] at hx
  · have hxe : x = "POL-3" := by simpa using hx
    exact Or.inr (Or.inl hxe)
  · have hxe : x = "POL-8" := by simpa using hx
    exact Or.inr (Or.inr (Or.inr hxe))
  · simp at hx

theorem step_transito_sub (t : PyValue) (b : Bool) :
    ∀ x ∈ (step_transito t b).1, x = "POL-1" ∨ x = "POL-3" ∨ x = "POL-4" ∨ x = "POL-8" := by
  intro x hx
  rcases step_transito_cases t b with hc | hc | hc <;> rw [hc] at hx
  · have hxe : x = "POL-1" := by simpa using hx
    exact Or.inl hxe
  · have hxe : x = "POL-8" := by simpa using hx
    exact Or.inr (Or.inr (Or.inr hxe))
  · simp at hx

theorem step_fase_sub (f : List Char) :
    ∀ x ∈ (step_fase f).1, x = "POL-1" ∨ x = "POL-3" ∨ x = "POL-4" ∨ x = "POL-8" := by
  intro x hx
  rcases step_fase_cases f with hc | hc | hc <;> rw [hc] at hx
  · have hxe : x = "POL-1" := by simpa using hx
    exact Or.inl hxe
  · have hxe : x = "POL-8" := by simpa using hx
    exact Or.inr (Or.inr (Or.inr hxe))
  · simp at hx

theorem step_natureza_pair (n : List Char) :
    (step_natureza n).1 = [] ↔ (step_natureza n).2 = [] := by
  rcases step_natureza_cases n with hc | hc <;> simp [hc]

theorem step_valor_pair (v : PyValue) :
    (step_valor v).1 = [] ↔ (step_valor v).2 = [] := by
  rcases step_valor_cases v with hc | hc | hc <;> rw [hc] <;> simp

theorem step_transito_pair (t : PyValue) (b : Bool) :
    (step_transito t b).1 = [] ↔ (step_transito t b).2 = [] := by
  rcases step_transito_cases t b with hc | hc | hc <;> rw [hc] <;> simp

theorem step_fase_pair (f : List Char) :
    (step_fase f).1 = [] ↔ (step_fase f).2 = [] := by
  rcases step_fase_cases f with hc | hc | hc <;> rw [hc] <;> simp

theorem apply_rules_ok_elim {payload : List (List Char × PyValue)}
    {d : String} {cits rs : List String}
    (h : apply_rules payload = .ok (d, cits, rs)) :
    ∃ natureza fase tem,
      asStrLower (getPy payload "natureza".toList) = .ok natureza ∧
      asStrLower (getPy payload "fase".toList) = .ok fase ∧
      docsFlag (getPy payload "docs".toList) = .ok tem ∧
      rules_core natureza fase (getPy payload "valor_condenacao".toList)
        (getPy payload "transitado_em_julgado".toList) tem = (d, cits, rs) := by
  cases hn : asStrLower (getPy payload "natureza".toList) with
  | error e =>
    rw [apply_rules, hn] at h
    simp at h
  | ok natureza =>
    cases hf : asStrLower (getPy payload "fase".toList) with
    | error e =>
      rw [apply_rules, hn, hf] at h
      simp at h
    | ok fase =>
      cases hd : docsFlag (getPy payload "docs".toList) with
      | error e =>
        rw [apply_rules, hn, hf, hd] at h
        simp at h
      | ok tem =>
        rw [apply_rules, hn, hf, hd] at h
        simp only [Except.ok.injEq] at h
        exact ⟨natureza, fase, tem, rfl, rfl, rfl, h⟩

theorem rules_core_decision_iff (natureza fase : List Char) (valor transitado : PyValue)
    (tem : Bool) (d : String) (cits rs : List String)
    (h : rules_core natureza fase valor transitado tem = (d, cits, rs)) :
    d = (if ("POL-4" ∈ cits ∨ "POL-3" ∈ cits ∨ isPyFalse transitado = true ∨
          ("POL-1" ∈ cits ∧ "POL-8" ∉ cits)) then "rejected"
        else if "POL-8" ∈ cits then "incomplete" else "approved") := by
  rw [rules_core, Prod.mk.injEq, Prod.mk.injEq] at h
  obtain ⟨h1, h2, _⟩ := h
  subst h2
  subst h1
  set CITS := dedupe
    ((step_natureza natureza).1 ++ (step_valor valor).1 ++
      (step_transito transitado tem).1 ++ (step_fase fase).1) with hC
  have hbridge : (decide ("POL-4" ∈ CITS) || decide ("POL-3" ∈ CITS) || isPyFalse transitado ||
      (decide ("POL-1" ∈ CITS) && !decide ("POL-8" ∈ CITS))) = true ↔
      ("POL-4" ∈ CITS ∨ "POL-3" ∈ CITS ∨ isPyFalse transitado = true ∨
       ("POL-1" ∈ CITS ∧ "POL-8" ∉ CITS)) := by
    simp [or_assoc]
  by_cases hR : ("POL-4" ∈ CITS ∨ "POL-3" ∈ CITS ∨ isPyFalse transitado = true ∨
      ("POL-1" ∈ CITS ∧ "POL-8" ∉ CITS))
  · rw [if_pos (hbridge.mpr hR), if_pos hR]
  · rw [if_neg (fun hc => hR (hbridge.mp hc)), if_neg hR]
    by_cases h8 : "POL-8" ∈ CITS
    · rw [if_pos (by simpa using h8), if_pos h8]
    · rw [if_neg (by simpa using h8), if_neg h8]

theorem asStrLower_ok_of_good {v : PyValue}
    (h : pyTruthy v = false ∨ ∃ s, v = .str s) : ∃ r, asStrLower v = .ok r := by
  rcases h with h | ⟨s, rfl⟩
  · rw [asStrLower, pyOr, if_neg (by simp [h])]
    exact ⟨_, rfl⟩
  · rw [asStrLower, pyOr]
    by_cases ht : pyTruthy (PyValue.str s) = true
    · rw [if_pos ht]
      exact ⟨_, rfl⟩
    · rw [if_neg ht]
      exact ⟨_, rfl⟩

theorem docsFlag_ok_of_good {v : PyValue}
    (h : pyTruthy v = false ∨ ∃ entries, v = .dict entries) : ∃ r, docsFlag v = .ok r := by
  rcases h with h | ⟨entries, rfl⟩
  · rw [docsFlag, pyOr, if_neg (by simp [h])]
    exact ⟨_, rfl⟩
  · rw [docsFlag, pyOr]
    by_cases ht : pyTruthy (PyValue.dict entries) = true
    · rw [if_pos ht]
      exact ⟨_, rfl⟩
    · rw [if_neg ht]
      exact ⟨_, rfl⟩

/-- C3: for every case payload on which `apply_rules` returns, the decision
follows the fixed precedence: `rejected` iff POL-4 cited, or POL-3 cited, or
`transitado_em_julgado` is exactly `False`, or (POL-1 cited and POL-8 not
cited); otherwise `incomplete` iff POL-8 cited; otherwise `approved` — and
the decision is always one of these three literals. -/
theorem apply_rules_decision_spec (payload : List (List Char × PyValue))
    (d : String) (cits rs : List String)
    (h : apply_rules payload = .ok (d, cits, rs)) :
    d = (if ("POL-4" ∈ cits ∨ "POL-3" ∈ cits ∨
          isPyFalse (getPy payload "transitado_em_julgado".toList) = true ∨
          ("POL-1" ∈ cits ∧ "POL-8" ∉ cits)) then "rejected"
        else if "POL-8" ∈ cits then "incomplete" else "approved") ∧
      (d = "rejected" ∨ d = "incomplete" ∨ d = "approved") := by
  obtain ⟨nat, fas, tem, _, _, _, hcore⟩ := apply_rules_ok_elim h
  have hd := rules_core_decision_iff _ _ _ _ _ _ _ _ hcore
  refine ⟨hd, ?_⟩
  rw [hd]
  split
  · exact Or.inl rfl
  · split
    · exact Or.inr (Or.inl rfl)
    · exact Or.inr (Or.inr rfl)

/-- Witness for C3 at spec scenario 3 (the all-rules-satisfied payload). -/
theorem apply_rules_decision_spec_witness :
    (("approved" : String) = (if ("POL-4" ∈ ([] : List String) ∨
        "POL-3" ∈ ([] : List String) ∨
        isPyFalse (getPy approvedPayload "transitado_em_julgado".toList) = true ∨
        ("POL-1" ∈ ([] : List String) ∧ "POL-8" ∉ ([] : List String))) then "rejected"
      else if "POL-8" ∈ ([] : List String) then "incomplete" else "approved")) ∧
      (("approved" : String) = "rejected" ∨ ("approved" : String) = "incomplete" ∨
        ("approved" : String) = "approved") :=
  apply_rules_decision_spec approvedPayload "approved" [] [] (by rfl)

/-- C9: citations are duplicate-free, drawn from the four rule ids the
engine can cite, and `approved` holds exactly when the citation list is
empty, which holds exactly when the reason list is empty. -/
theorem apply_rules_citations_invariants (payload : List (List Char × PyValue))
    (d : String) (cits rs : List String)
    (h : apply_rules payload = .ok (d, cits, rs)) :
    cits.Nodup ∧ (∀ x ∈ cits, x = "POL-1" ∨ x = "POL-3" ∨ x = "POL-4" ∨ x = "POL-8") ∧
      (d = "approved" ↔ cits = []) ∧ (cits = [] ↔ rs = []) := by
  obtain ⟨nat, fas, tem, _, _, _, hcore⟩ := apply_rules_ok_elim h
  have hdec := rules_core_decision_iff _ _ _ _ _ _ _ _ hcore
  rw [rules_core, Prod.mk.injEq, Prod.mk.injEq] at hcore
  obtain ⟨-, h2, h3⟩ := hcore
  subst h2
  subst h3
  set V := getPy payload "valor_condenacao".toList with hV
  set T := getPy payload "transitado_em_julgado".toList with hT
  set CITS := dedupe
    ((step_natureza nat).1 ++ (step_valor V).1 ++
      (step_transito T tem).1 ++ (step_fase fas).1) with hCITS
  have hsub : ∀ x ∈ CITS, x = "POL-1" ∨ x = "POL-3" ∨ x = "POL-4" ∨ x = "POL-8" := by
    intro x hx
    rw [hCITS, mem_dedupe] at hx
    rcases List.mem_append.mp hx with hx | hx
    · rcases List.mem_append.mp hx with hx | hx
      · rcases List.mem_append.mp hx with hx | hx
        · exact step_natureza_sub nat x hx
        · exact step_valor_sub V x hx
      · exact step_transito_sub T tem x hx
    · exact step_fase_sub fas x hx
  have hemp : CITS = [] ↔
      (step_natureza nat).1 = [] ∧ (step_valor V).1 = [] ∧
        (step_transito T tem).1 = [] ∧ (step_fase fas).1 = [] := by
    rw [hCITS, dedupe_nil_iff]
    simp [List.append_eq_nil, and_assoc]
  refine ⟨dedupe_nodup _, hsub, ?_, ?_⟩
  · constructor
    · intro happ
      rw [hdec] at happ
      by_cases hR : ("POL-4" ∈ CITS ∨ "POL-3" ∈ CITS ∨ isPyFalse T = true ∨
          ("POL-1" ∈ CITS ∧ "POL-8" ∉ CITS))
      · rw [if_pos hR] at happ
        exact absurd happ (by decide)
      · by_cases h8 : "POL-8" ∈ CITS
        · rw [if_neg hR, if_pos h8] at happ
          exact absurd happ (by decide)
        · rw [List.eq_nil_iff_forall_not_mem]
          intro x hx
          rcases hsub x hx with rfl | rfl | rfl | rfl
          · exact hR (Or.inr (Or.inr (Or.inr ⟨hx, h8⟩)))
          · exact hR (Or.inr (Or.inl hx))
          · exact hR (Or.inl hx)
          · exact h8 hx
    · intro hnil
      have hsteps := hemp.mp hnil
      have hTf : isPyFalse T = false := step_transito_nil_false hsteps.2.2.1
      rw [hdec, hnil]
      rw [if_neg (by simp [hTf])]
      rw [if_neg (by simp)]
  · rw [hemp]
    simp only [List.append_eq_nil, and_assoc]
    rw [step_natureza_pair, step_valor_pair, step_transito_pair, step_fase_pair]

/-- Witness for C9 at spec scenario 2's payload. -/
theorem apply_rules_citations_invariants_witness :
    (["POL-3", "POL-1", "POL-8"] : List String).Nodup ∧
    (∀ x ∈ (["POL-3", "POL-1", "POL-8"] : List String),
      x = "POL-1" ∨ x = "POL-3" ∨ x = "POL-4" ∨ x = "POL-8") ∧
    (("rejected" : String) = "approved" ↔ (["POL-3", "POL-1", "POL-8"] : List String) = []) ∧
    ((["POL-3", "POL-1", "POL-8"] : List String) = [] ↔
      (["Valor de condenação inferior a R$ 1.000,00.",
        "Processo não transitado em julgado.",
        "Fase processual não informada."] : List String) = []) :=
  apply_rules_citations_invariants laborPayload "rejected"
    ["POL-3", "POL-1", "POL-8"]
    ["Valor de condenação inferior a R$ 1.000,00.",
     "Processo não transitado em julgado.",
     "Fase processual não informada."] (by rfl)

/-- C7 (amended): `apply_rules` returns normally whenever every field that
the extraction lines call string/dict methods on (`natureza`, `fase`,
`docs`) is falsy or well-typed, and an unparsable non-`None` award value
degrades into a POL-8 citation rather than an error. -/
theorem apply_rules_total_on_typed (payload : List (List Char × PyValue))
    (hnat : pyTruthy (getPy payload "natureza".toList) = false ∨
      ∃ s, getPy payload "natureza".toList = .str s)
    (hfas : pyTruthy (getPy payload "fase".toList) = false ∨
      ∃ s, getPy payload "fase".toList = .str s)
    (hdocs : pyTruthy (getPy payload "docs".toList) = false ∨
      ∃ entries, getPy payload "docs".toList = .dict entries) :
    ∃ d cits rs, apply_rules payload = .ok (d, cits, rs) ∧
      (isPyNone (getPy payload "valor_condenacao".toList) = false →
        pyFloatParses (getPy payload "valor_condenacao".toList) = false →
        "POL-8" ∈ cits) := by
  obtain ⟨nat, hn⟩ := asStrLower_ok_of_good hnat
  obtain ⟨fas, hf⟩ := asStrLower_ok_of_good hfas
  obtain ⟨tem, hdoc⟩ := docsFlag_ok_of_good hdocs
  refine ⟨(rules_core nat fas (getPy payload "valor_condenacao".toList)
      (getPy payload "transitado_em_julgado".toList) tem).1,
    (rules_core nat fas (getPy payload "valor_condenacao".toList)
      (getPy payload "transitado_em_julgado".toList) tem).2.1,
    (rules_core nat fas (getPy payload "valor_condenacao".toList)
      (getPy payload "transitado_em_julgado".toList) tem).2.2, ?_, ?_⟩
  · rw [apply_rules, hn, hf, hdoc]
  · intro hvn hvp
    have hsv : (step_valor (getPy payload "valor_condenacao".toList)).1 = ["POL-8"] := by
      rw [step_valor, if_neg (by simp only [hvn]; simp)]
      cases hpf : pyFloatOf (getPy payload "valor_condenacao".toList) with
      | ok f =>
        rw [pyFloatParses, hpf] at hvp
        simp at hvp
      | error e =>
        rfl
    show "POL-8" ∈ dedupe
      ((step_natureza nat).1 ++ (step_valor (getPy payload "valor_condenacao".toList)).1 ++
        (step_transito (getPy payload "transitado_em_julgado".toList) tem).1 ++
        (step_fase fas).1)
    rw [mem_dedupe, hsv]
    simp

/-- Witness for C7 at spec scenario 4 (unparsable award value, null
finality, null phase, empty docs). -/
theorem apply_rules_total_on_typed_witness :
    (pyTruthy (getPy incompletePayload "natureza".toList) = false ∨
      ∃ s, getPy incompletePayload "natureza".toList = PyValue.str s) ∧
    ∃ d cits rs, apply_rules incompletePayload = .ok (d, cits, rs) ∧
      (isPyNone (getPy incompletePayload "valor_condenacao".toList) = false →
        pyFloatParses (getPy incompletePayload "valor_condenacao".toList) = false →
        "POL-8" ∈ cits) :=
  ⟨Or.inr ⟨"civil".toList, by rfl⟩,
   apply_rules_total_on_typed incompletePayload
     (Or.inr ⟨"civil".toList, by rfl⟩) (Or.inl (by rfl)) (Or.inr ⟨[], by rfl⟩)⟩

/-- Counterexample for C7 as frozen: a truthy non-string `natureza` reaches
`(payload.get("natureza") or "").strip()` and raises `AttributeError`
instead of degrading to a POL-8 citation. -/
theorem apply_rules_nonstring_natureza_cex :
    apply_rules [("natureza".toList, PyValue.int 5)] = .error PyErr.attributeError := by
  rfl

/-- C4 (amended): on the scenario-2 payload the engine cites exactly
POL-3, POL-1 and POL-8 and rejects; POL-4 is not cited because the labor
keyword of the code is the substring `"trabalh"`, which `"labor"` does not
contain. -/
theorem apply_rules_labor_eval :
    apply_rules laborPayload =
      .ok ("rejected", ["POL-3", "POL-1", "POL-8"],
        ["Valor de condenação inferior a R$ 1.000,00.",
         "Processo não transitado em julgado.",
         "Fase processual não informada."]) ∧
    subList "trabalh".toList (pyLower (pyStrip "labor".toList)) = false := by
  exact ⟨by rfl, by rfl⟩

/-- Counterexample for C4 as frozen: POL-4 is not among the citations that
`apply_rules` returns for the scenario-2 payload. -/
theorem apply_rules_labor_cex :
    apply_rules laborPayload =
      .ok ("rejected", ["POL-3", "POL-1", "POL-8"],
        ["Valor de condenação inferior a R$ 1.000,00.",
         "Processo não transitado em julgado.",
         "Fase processual não informada."]) ∧
    ("POL-4" : String) ∉ (["POL-3", "POL-1", "POL-8"] : List String) := by
  exact ⟨by rfl, by decide⟩

/-- C5 (amended): when every sentence fits the budget (length + 1 ≤
chunkSize), every chunk emitted by `chunk_text` has length at most
chunkSize + overlap; the overlap-seeded buffers may genuinely exceed
chunkSize alone. -/
theorem chunk_text_length_bound (text : List Char) (cs ov : Int)
    (hcs : 0 < cs) (hov : 0 ≤ ov)
    (hsent : ∀ s ∈ split_sentences text, (s.length : Int) + 1 ≤ cs) :
    ∀ c ∈ chunk_text text cs ov, (c.length : Int) ≤ cs + ov := by
  intro c hc
  rw [chunk_text] at hc
  obtain ⟨c₀, hc₀, rfl⟩ := cleanChunksAux_sub _ _ _ hc
  have hb := chunkLoop_bound cs ov hov (split_sentences text) [] [] 0 hsent
    (by simp [joinSp]) le_rfl (by omega) (by simp) c₀ hc₀
  have h1 : (pyStrip (collapseWs c₀)).length ≤ (collapseWs c₀).length := pyStrip_len_le _
  have h2 : (collapseWs c₀).length ≤ c₀.length := collapseWs_len_le c₀.length c₀ le_rfl
  omega

/-- Witness for C5 on a small two-sentence input. -/
theorem chunk_text_length_bound_witness :
    (0 : Int) < 20 ∧ (0 : Int) ≤ 5 ∧
    (∀ s ∈ split_sentences "Um gato veio. Um cão foi.".toList, (s.length : Int) + 1 ≤ 20) ∧
    ∀ c ∈ chunk_text "Um gato veio. Um cão foi.".toList 20 5, (c.length : Int) ≤ 20 + 5 :=
  ⟨by decide, by decide, by decide,
   chunk_text_length_bound "Um gato veio. Um cão foi.".toList 20 5
     (by decide) (by decide) (by decide)⟩

/-- Counterexample for C5 as frozen: with chunkSize 20 and overlap 5, two
19-character sentences produce a second, overlap-seeded chunk of 25
characters, even though every sentence fits in a chunk alone (so the
hard-truncation exception does not apply: truncated chunks never exceed
chunkSize). -/
theorem chunk_text_overlap_bound_cex :
    chunk_text overlapCexText 20 5 =
      ["aaaaaaaaaaaaaaaaaa.".toList, "aaaa. bbbbbbbbbbbbbbbbbb.".toList] ∧
    ("aaaa. bbbbbbbbbbbbbbbbbb.".toList).length = 25 ∧
    (split_sentences overlapCexText).all (fun s => s.length ≤ 20) = true := by
  exact ⟨by decide, by decide, by decide⟩

/-- C6 (amended): `chunk_text` performs no chunk-size validation and never
raises; with chunkSize = 0 the accumulate branch is unreachable, every
sentence is truncated to the empty string and the cleanup drops them all,
so the call returns the empty list normally. -/
theorem chunk_text_zero_size (text : List Char) (ov : Int) :
    chunk_text text 0 ov = [] := by
  rw [chunk_text, chunkLoop_zero]
  apply cleanChunksAux_empties
  intro c hc
  simp only [List.nil_append] at hc
  obtain ⟨a, -, hceq⟩ := List.mem_map.mp hc
  exact hceq.symm

/-- Counterexample for C6 as frozen: a non-positive chunkSize is not
rejected; segmentation runs and (here, with chunkSize −1 via Python's
negative slicing) a non-empty chunk list is returned to the caller. -/
theorem chunk_text_nonpositive_cex :
    chunk_text "Primeira frase. Segunda.".toList (-1) 0 =
      ["Primeira frase".toList, "Segunda".toList] := by
  decide

/-- C8 (amended): when every sentence fits the budget, every sentence of
the input appears (whitespace-normalised, at least once) inside some
emitted chunk; the final whitespace collapse can rewrite sentences, so
literal appearance of the raw sentence can fail. -/
theorem chunk_text_sentence_coverage (text : List Char) (cs ov : Int)
    (hsent : ∀ s ∈ split_sentences text, (s.length : Int) + 1 ≤ cs) :
    ∀ s ∈ split_sentences text, ∃ c ∈ chunk_text text cs ov, collapseWs s <:+: c := by
  intro s hs
  obtain ⟨hne, hh, hl⟩ := split_sentences_shape hs
  obtain ⟨c₀, hc₀, hwithin⟩ := chunkLoop_covers cs ov (split_sentences text) [] [] 0 s hsent
    (fun _ => rfl) hne hh hl (Or.inl hs)
  have h1 : collapseWs s <:+: collapseWs c₀ := within_collapseWs hne hh hl hwithin
  have hcsne : collapseWs s ≠ [] := collapseWs_ne_nil hne
  have hchead : ∀ c, (collapseWs s).head? = some c → pyIsSpace c = false := by
    intro c hc
    obtain ⟨c₁, r, rfl⟩ : ∃ c₁ r, s = c₁ :: r := by
      cases s with
      | nil => exact absurd rfl hne
      | cons a b => exact ⟨a, b, rfl⟩
    have hc₁ : pyIsSpace c₁ = false := hh c₁ rfl
    have hhead := collapseWs_head (p := c₁ :: r) rfl hc₁
    rw [hhead] at hc
    obtain rfl : c₁ = c := by simpa using hc
    exact hc₁
  have hclast : ∀ c, (collapseWs s).getLast? = some c → pyIsSpace c = false := by
    intro c hc
    rw [collapseWs_getLast s.length s (Nat.le_refl _) hl] at hc
    exact hl c hc
  have h2 : collapseWs s <:+: pyStrip (collapseWs c₀) := within_pyStrip hcsne hchead hclast h1
  have h3 : pyStrip (collapseWs c₀) ≠ [] := by
    intro h0
    rw [h0] at h2
    have hlen := h2.length_le
    simp only [List.length_nil, Nat.le_zero, List.length_eq_zero] at hlen
    exact hcsne hlen
  rcases cleanChunksAux_sup (chunkLoop cs ov (split_sentences text) [] [] 0) [] c₀ hc₀ h3
    with hmem | hmem
  · exact ⟨pyStrip (collapseWs c₀), hmem, h2⟩
  · simp at hmem

/-- Witness for C8 on a small two-sentence input. -/
theorem chunk_text_sentence_coverage_witness :
    (∀ s ∈ split_sentences "Um gato veio. Um cão foi.".toList, (s.length : Int) + 1 ≤ 20) ∧
    ∀ s ∈ split_sentences "Um gato veio. Um cão foi.".toList,
      ∃ c ∈ chunk_text "Um gato veio. Um cão foi.".toList 20 5, collapseWs s <:+: c :=
  ⟨by decide,
   chunk_text_sentence_coverage "Um gato veio. Um cão foi.".toList 20 5 (by decide)⟩

/-- Counterexample for C8 as frozen: the sentence `"Hello  world."` (double
interior space) of the input never appears in the concatenation of the
emitted chunks, because the cleanup pass collapses the whitespace run. -/
theorem chunk_text_sentence_coverage_cex :
    "Hello  world.".toList ∈ split_sentences "Hello  world. Bye.".toList ∧
    chunk_text "Hello  world. Bye.".toList 100 0 = ["Hello world. Bye.".toList] ∧
    ¬ "Hello  world.".toList <:+:
      List.flatten (chunk_text "Hello  world. Bye.".toList 100 0) := by
  exact ⟨by decide, by decide, by decide⟩

/-- C10: ingesting an empty or whitespace-only text reports zero added
chunks with an empty id list and leaves the vector store untouched, for
every possible store state and upsert implementation. -/
theorem ingest_text_empty_noop {σ : Type}
    (upsertF : List Char → List (List Char) → List (List Char × Nat) → List (List Char) → σ → σ)
    (collection text source : List Char) (chunk_size overlap : Int) (store : σ)
    (h : pyStrip text = []) :
    ingest_text upsertF collection text source chunk_size overlap store =
      (⟨collection, 0, []⟩, store) := by
  rw [ingest_text, if_pos (by simp [h])]

/-- Witness for C10 on a whitespace-only text over a counting store. -/
theorem ingest_text_empty_noop_witness :
    pyStrip "  \n ".toList = [] ∧
    ingest_text (σ := Nat) (fun _ _ _ _ n => n + 1) "col".toList "  \n ".toList
        "manual".toList 800 150 0 = (⟨"col".toList, 0, []⟩, 0) :=
  ⟨by decide, ingest_text_empty_noop _ _ _ _ _ _ _ (by decide)⟩

/-- Witness for C1 with a non-blank context chunk and an empty decode
(which forces the extractive fallback). -/
theorem generate_answer_nonempty_clean_witness :
    ∃ r, generate_answer ⟨"t5".toList, "local".toList⟩ (fun _ => Except.ok [])
        (fun _ => []) (fun _ => [])
        ["A casa amarela é bonita.".toList] "Qual?".toList = Except.ok r ∧ r ≠ [] ∧
        ((∀ c ∈ [("A casa amarela é bonita.".toList : List Char)], ∀ p ∈ echoPatterns,
            ¬ p <:+: pyLower (pyStrip c)) →
          ∀ p ∈ echoPatterns, ¬ p <:+: pyLower r) :=
  generate_answer_nonempty_clean ⟨"t5".toList, "local".toList⟩
    ["A casa amarela é bonita.".toList] "Qual?".toList [] (by decide)

/-- Counterexample for C1 as frozen: when the backend decodes to nothing,
the fallback quotes the first context chunk, and a chunk beginning with
`"Resposta:"` makes the returned answer contain the fixed
leaked-instruction substring `"resposta:"` case-insensitively. -/
theorem generate_answer_leak_cex :
    generate_answer ⟨"t5".toList, "local".toList⟩ (fun _ => Except.ok [])
        (fun _ => []) (fun _ => [])
        ["Resposta: tudo certo agora.".toList] "Qual?".toList =
      Except.ok "Resposta: tudo certo agora.".toList ∧
    "resposta:".toList <:+: pyLower "Resposta: tudo certo agora.".toList := by
  exact ⟨by rfl, by decide⟩

/-- C2 (amended): with the hosted-inference backend selected, a backend
error is mapped to an `HTTPException` carrying the backend's status code
(500 when absent) and propagated out of `generate_answer`, even when
usable context is available; no extractive fallback happens on this
path. -/
theorem generate_answer_hf_error_propagates (st : GenSettings)
    (t2tGen causalGen : List Char → List Char)
    (context_chunks : List (List Char)) (question : List Char) (status : Option Int)
    (hbk : pyLower (if st.LLM_BACKEND.isEmpty then "local".toList else st.LLM_BACKEND) =
      "hf".toList) :
    generate_answer st (fun _ => Except.error status) t2tGen causalGen context_chunks
        question = Except.error ⟨status.getD 500, hfErrorDetail⟩ := by
  simp only [generate_answer, generate_hf]
  rw [if_pos hbk]

/-- Witness for C2 with a status-less backend failure (mapped to 500). -/
theorem generate_answer_hf_error_propagates_witness :
    generate_answer ⟨"gpt2".toList, "hf".toList⟩ (fun _ => Except.error Option.none)
        (fun _ => []) (fun _ => []) ["Contexto disponível aqui.".toList]
        "Pergunta?".toList = Except.error ⟨(Option.none : Option Int).getD 500, hfErrorDetail⟩ :=
  generate_answer_hf_error_propagates ⟨"gpt2".toList, "hf".toList⟩ (fun _ => []) (fun _ => [])
    ["Contexto disponível aqui.".toList] "Pergunta?".toList Option.none (by decide)

/-- Counterexample for C2 as frozen: with context available and a 503 from
the hosted backend, `generate_answer` returns the propagated
`HTTPException` instead of the claimed extractive fallback. -/
theorem generate_answer_hf_error_cex :
    generate_answer ⟨"gpt2".toList, "hf".toList⟩ (fun _ => Except.error (some 503))
        (fun _ => []) (fun _ => []) ["Algum contexto útil aqui.".toList]
        "Pergunta?".toList = Except.error ⟨503, hfErrorDetail⟩ := by
  rfl
